import Mathlib

/-!
Shallow embedding of the temporal segmentation and aggregation engine of the
video-analysis pipeline (`src/analysis/static.py` and
`src/analysis/aggregation.py`), together with theorems settling the frozen
claims about it.

Modelling conventions:
* Python `float` values (timestamps, thresholds, dissimilarity scores,
  durations, confidences) are modelled as rationals (`ℚ`).
* Python `int` values (interest scores, the quality score) are modelled as `ℤ`;
  Python's floor division `//` is `Int.fdiv`, and `int(x)` is truncation
  toward zero (`pyInt`).
* Python strings are `String`; `str.lower()` is `pyLower`, and the substring
  test `needle in hay` is `strIn`.
* A `collections.Counter` (an insertion-ordered dict of counts) is modelled as
  an association list `List (String × ℕ)` updated by `bump`, so that key
  iteration order (first-insertion order) is preserved.
* Python's stable `list.sort(key=…, reverse=True)` is modelled by
  `List.insertionSort` with the non-strict relation "count of `a` ≥ count of
  `b`", which places an element inserted later (i.e. occurring earlier in the
  input) before elements of equal key: a stable descending sort.
* The image contents of a video frame are an opaque type parameter `α`, and
  the SSIM dissimilarity computation of `compute_frame_difference` is an
  opaque parameter `d : α → α → ℚ`, since the claims only concern how the
  detector consumes the dissimilarity series.
-/

attribute [local semireducible] Rat.add Rat.sub Rat.mul Rat.inv Rat.ofScientific

namespace VideoAnalysis

/-- Python `str.lower()` (ASCII case folding, as used on the issue strings). -/
def pyLower (s : String) : String := String.mk (s.data.map Char.toLower)

/-- Substring search on character lists: does `needle` occur contiguously in
`hay`? -/
def subAux (needle : List Char) : List Char → Bool
  | [] => needle.isEmpty
  | c :: t => needle.isPrefixOf (c :: t) || subAux needle t

/-- Python's `needle in hay` substring test for strings. -/
def strIn (needle hay : String) : Bool := subAux needle.data hay.data

/-- Python `int(x)`: truncation toward zero. -/
def pyInt (q : ℚ) : ℤ := if q < 0 then -⌊-q⌋ else ⌊q⌋

/-- Model of `src/models/schema.py`, `FrameAnalysis`: one per sampled frame.
`interest_score` is validated into `[1,10]` by the pydantic schema. -/
structure FrameAnalysis where
  timestamp : ℚ
  description : String
  environment : List String
  flight_style : String
  interest_score : ℤ
  quality_issues : List String
  deriving DecidableEq

/-- Model of `src/models/schema.py`, `Highlight` (the `end` field is `end_` because
`end` is a Lean keyword). -/
structure Highlight where
  start : ℚ
  end_ : ℚ
  score : ℤ
  description : String
  tags : List String
  deriving DecidableEq

/-- Model of `src/models/schema.py`, `StaticReason`. -/
inductive StaticReason where
  | PRE_ARM
  | POST_LAND
  | DVR_FREEZE
  | SIGNAL_LOSS
  | UNKNOWN
  deriving DecidableEq

/-- Model of `src/models/schema.py`, `StaticSegment`. -/
structure StaticSegment where
  start : ℚ
  end_ : ℚ
  reason : StaticReason
  confidence : ℚ
  deriving DecidableEq

/-- Model of `src/models/schema.py`, `QualityMetadata`, with the schema's default
field values. -/
structure QualityMetadata where
  overall_score : ℤ := 5
  issues : List String := []
  dvr_artifacts_detected : Bool := false
  signal_loss_segments : List (ℚ × ℚ) := []
  deriving DecidableEq

/-- Model of `src/analysis/frames.py`, `Frame`: a timestamp plus opaque image data. -/
structure Frame (α : Type) where
  timestamp : ℚ
  image : α

/-- One `Counter[key] += 1` update on an insertion-ordered association list:
an existing key keeps its position, a new key is appended at the end. -/
def bump : List (String × ℕ) → String → List (String × ℕ)
  | [], k => [(k, 1)]
  | (k', c) :: t, k => if k' = k then (k', c + 1) :: t else (k', c) :: bump t k

/-- Lookup `counter[k]` (`0` when absent, which never occurs for iterated
keys). -/
def lookupCount : List (String × ℕ) → String → ℕ
  | [], _ => 0
  | (k', c) :: t, k => if k' = k then c else lookupCount t k

/-- The keys of a counter, in insertion order (`dict` iteration order). -/
def keysOf (l : List (String × ℕ)) : List String := l.map Prod.fst

/-- The tag observations contributed by one frame analysis, in the order the
code counts them (`aggregation.py` lines 42-49): all environment tags, then
the flight style when it is truthy (non-empty) and not `"unknown"` or
`"stationary"`. -/
def frameTagObs (fa : FrameAnalysis) : List String :=
  fa.environment ++
    (if fa.flight_style ≠ "" ∧ fa.flight_style ≠ "unknown" ∧
        fa.flight_style ≠ "stationary"
     then [fa.flight_style] else [])

/-- The whole stream of tag observations, in program order. -/
def tagObs (frame_analyses : List FrameAnalysis) : List String :=
  frame_analyses.flatMap frameTagObs

/-- The `tag_counter` built by the nested loops of `extract_tags`
(`aggregation.py` lines 40-49): successive `Counter` increments over the
observation stream. -/
def tagCounter (frame_analyses : List FrameAnalysis) : List (String × ℕ) :=
  (tagObs frame_analyses).foldl bump []

/-- Model of `aggregation.py` lines 26-61, `Aggregator.extract_tags`.  The
`self.tag_threshold` configuration field is passed explicitly. -/
def extract_tags (tag_threshold : ℚ) (frame_analyses : List FrameAnalysis) :
    List String :=
  if frame_analyses = [] then []
  else
    let tag_counter := tagCounter frame_analyses
    let total_frames : ℕ := frame_analyses.length
    let threshold_count : ℤ := pyInt ((total_frames : ℚ) * tag_threshold)
    let tags := (keysOf tag_counter).filter
      fun t => threshold_count ≤ (lookupCount tag_counter t : ℤ)
    List.insertionSort
      (fun a b => lookupCount tag_counter b ≤ lookupCount tag_counter a) tags

/-- Python's `max(frames, key=lambda f: f.interest_score)`: the first frame
with the maximal interest score (a later frame replaces the current best only
when strictly greater).  Junk value on the empty list, which the code never
passes. -/
def pyMaxFrame : List FrameAnalysis → FrameAnalysis
  | [] => ⟨0, "", [], "", 0, []⟩
  | f :: t =>
    t.foldl (fun best g => if best.interest_score < g.interest_score then g else best) f

/-- Model of `aggregation.py` lines 124-165, `Aggregator._create_highlight`:
`avg_score` is Python floor division `sum // len`, tags are the five most
common counted tags, the description comes from the first highest-scoring
member frame. -/
def create_highlight (start end_ : ℚ) (frames : List FrameAnalysis) : Highlight :=
  let avg_score : ℤ := (frames.map FrameAnalysis.interest_score).sum.fdiv frames.length
  let tag_counter := (frames.flatMap frameTagObs).foldl bump []
  let top_tags :=
    (List.insertionSort
      (fun a b => lookupCount tag_counter b ≤ lookupCount tag_counter a)
      (keysOf tag_counter)).take 5
  let best_frame := pyMaxFrame frames
  ⟨start, end_, avg_score, best_frame.description, top_tags⟩

/-- The scanning loop of `detect_highlights` (`aggregation.py` lines 83-119).
`prev` is `frame_analyses[i-1]`, the element examined just before the ones in
`rest`; `in_highlight`, `highlight_start` and `highlight_frames` are the
loop's mutable state.  When `rest` is exhausted, `prev` is
`frame_analyses[-1]` and the trailing open run is flushed (lines 109-119). -/
def hLoop (score_threshold : ℤ) (min_duration : ℚ) :
    FrameAnalysis → List FrameAnalysis → Bool → ℚ → List FrameAnalysis →
    List Highlight
  | prev, [], in_highlight, highlight_start, highlight_frames =>
    if in_highlight then
      if min_duration ≤ prev.timestamp - highlight_start then
        [create_highlight highlight_start prev.timestamp highlight_frames]
      else []
    else []
  | prev, cur :: rest, in_highlight, highlight_start, highlight_frames =>
    if score_threshold ≤ cur.interest_score then
      if in_highlight then
        hLoop score_threshold min_duration cur rest true highlight_start
          (highlight_frames ++ [cur])
      else
        hLoop score_threshold min_duration cur rest true cur.timestamp [cur]
    else
      if in_highlight then
        (if min_duration ≤ prev.timestamp - highlight_start then
          [create_highlight highlight_start prev.timestamp highlight_frames]
        else []) ++
          hLoop score_threshold min_duration cur rest false highlight_start []
      else
        hLoop score_threshold min_duration cur rest false highlight_start
          highlight_frames

/-- Model of `aggregation.py` lines 63-122, `Aggregator.detect_highlights`.  The
initial state is `in_highlight = False`, `highlight_start = 0.0`,
`highlight_frames = []`; the first iteration of the loop is unfolded here so
that the loop itself can carry the previous element. -/
def detect_highlights (score_threshold : ℤ) (min_duration : ℚ)
    (frame_analyses : List FrameAnalysis) : List Highlight :=
  match frame_analyses with
  | [] => []
  | fa :: rest =>
    if score_threshold ≤ fa.interest_score then
      hLoop score_threshold min_duration fa rest true fa.timestamp [fa]
    else
      hLoop score_threshold min_duration fa rest false 0 []

/-- Model of `static.py` lines 49-70, `StaticDetector.classify_static`. -/
def classify_static (start end_ video_duration : ℚ) : StaticReason :=
  if start < 30 then StaticReason.PRE_ARM
  else if video_duration - 30 < end_ then StaticReason.POST_LAND
  else StaticReason.DVR_FREEZE

/-- The scanning loop of `detect_static_segments` (`static.py` lines
97-130).  `prev` is `frames[i-1]`; each step compares `prev` against the head
of `rest` using the dissimilarity function `d` (the SSIM-based
`compute_frame_difference`).  When `rest` is exhausted, `prev` is
`frames[-1]` and the trailing open run is flushed with confidence `0.9`
(lines 132-145). -/
def sLoop {α : Type} (d : α → α → ℚ) (threshold min_duration video_duration : ℚ) :
    Frame α → List (Frame α) → Bool → ℚ → List StaticSegment
  | prev, [], in_static, static_start =>
    if in_static then
      if min_duration ≤ prev.timestamp - static_start then
        [⟨static_start, prev.timestamp,
          classify_static static_start prev.timestamp video_duration, 9/10⟩]
      else []
    else []
  | prev, cur :: rest, in_static, static_start =>
    let diff := d prev.image cur.image
    if diff < threshold then
      if in_static then
        sLoop d threshold min_duration video_duration cur rest true static_start
      else
        sLoop d threshold min_duration video_duration cur rest true prev.timestamp
    else
      if in_static then
        (if min_duration ≤ cur.timestamp - static_start then
          [⟨static_start, cur.timestamp,
            classify_static static_start cur.timestamp video_duration,
            max 0 (min 1 (1 - diff / threshold))⟩]
        else []) ++
          sLoop d threshold min_duration video_duration cur rest false static_start
      else
        sLoop d threshold min_duration video_duration cur rest false static_start

/-- Model of `static.py` lines 72-148, `StaticDetector.detect_static_segments`.  Fewer
than two frames yield no segments; otherwise the loop starts at the second
frame with `in_static = False`, `static_start = 0.0`. -/
def detect_static_segments {α : Type} (d : α → α → ℚ)
    (threshold min_duration : ℚ) (frames : List (Frame α))
    (video_duration : ℚ) : List StaticSegment :=
  if frames.length < 2 then []
  else
    match frames with
    | [] => []
    | f :: rest => sLoop d threshold min_duration video_duration f rest false 0

/-- Predicate `"dvr" in issue.lower() or "artifact" in issue.lower()`
(`aggregation.py` line 191). -/
def dvrMatch (issue : String) : Bool :=
  strIn "dvr" (pyLower issue) || strIn "artifact" (pyLower issue)

/-- Predicate `"signal" in issue.lower() or "loss" in issue.lower()`
(`aggregation.py` line 194). -/
def sigLossMatch (issue : String) : Bool :=
  strIn "signal" (pyLower issue) || strIn "loss" (pyLower issue)

/-- The stream of `(record timestamp, issue)` pairs walked by the nested
loops of `assess_quality` (`aggregation.py` lines 187-198), in program
order. -/
def issueStream (frame_analyses : List FrameAnalysis) : List (ℚ × String) :=
  frame_analyses.flatMap fun fa => fa.quality_issues.map fun issue => (fa.timestamp, issue)

/-- The per-issue deduction of `assess_quality` (`aggregation.py` lines
213-221): the first matching category in this `elif` order wins. -/
def deduction (issue : String) : ℤ :=
  if strIn "blur" (pyLower issue) then 2
  else if strIn "artifact" (pyLower issue) || strIn "dvr" (pyLower issue) then 3
  else if strIn "signal" (pyLower issue) || strIn "loss" (pyLower issue) then 4
  else if strIn "fog" (pyLower issue) || strIn "weather" (pyLower issue) then 1
  else 0

/-- Model of `aggregation.py` lines 167-232, `Aggregator.assess_quality`.  The float
literal `0.1` of line 202 is modelled as the rational `1/10`. -/
def assess_quality (frame_analyses : List FrameAnalysis) : QualityMetadata :=
  if frame_analyses = [] then {}
  else
    let stream := issueStream frame_analyses
    let issue_counter := (stream.map Prod.snd).foldl bump []
    let dvr_artifacts_detected := stream.any fun p => dvrMatch p.snd
    let signal_loss_segments :=
      (stream.filter fun p => sigLossMatch p.snd).map fun p => (p.fst, p.fst + 1)
    let total_frames : ℕ := frame_analyses.length
    let threshold : ℤ := max 1 (pyInt ((total_frames : ℚ) * (1/10)))
    let significant_issues := (keysOf issue_counter).filter
      fun issue => threshold ≤ (lookupCount issue_counter issue : ℤ)
    let overall_score : ℤ :=
      significant_issues.foldl (fun sc issue => sc - deduction issue) 10
    ⟨max 1 (min 10 overall_score), significant_issues, dvr_artifacts_detected,
      signal_loss_segments⟩

/-- Specification-side tally: how often tag `t` is counted across `records`
— occurrences among environment tags plus one per record whose flight style
equals `t`, where flight styles `""` (falsy), `"unknown"` and `"stationary"`
are never tallied.  This is an independent per-record sum formula against
which the `Counter`-based implementation is verified. -/
def specTagCount (records : List FrameAnalysis) (t : String) : ℕ :=
  (records.map fun fa =>
    fa.environment.count t +
      (if fa.flight_style = t ∧ t ≠ "" ∧ t ≠ "unknown" ∧ t ≠ "stationary"
       then 1 else 0)).sum

/-- The tally exactly as the claim words it: only the flight-style values
`"unknown"` and `"stationary"` are excluded (the empty flight style *is*
tallied here).  Used to exhibit where the claim diverges from the code. -/
def claimTagCount (records : List FrameAnalysis) (t : String) : ℕ :=
  (records.map fun fa =>
    fa.environment.count t +
      (if fa.flight_style = t ∧ t ≠ "unknown" ∧ t ≠ "stationary"
       then 1 else 0)).sum

/-- The distinct elements of an observation stream in first-observed order. -/
def firstSeenList (obs : List String) : List String :=
  obs.foldl (fun ks k => if k ∈ ks then ks else ks ++ [k]) []

/-! ### Helper lemmas -/

lemma fdiv_eq_floor (s : ℤ) (n : ℕ) :
    s.fdiv (n : ℤ) = ⌊(s : ℚ) / (n : ℚ)⌋ := by
  rw [Int.fdiv_eq_ediv _ (Int.natCast_nonneg n), Rat.floor_intCast_div_natCast]

lemma foldl_sub_deduction (l : List String) (init : ℤ) :
    l.foldl (fun sc issue => sc - deduction issue) init = init - (l.map deduction).sum := by
  induction l generalizing init with
  | nil => simp
  | cons x t ih => simp [ih, sub_sub]

lemma issueStream_cons (fa : FrameAnalysis) (t : List FrameAnalysis) :
    issueStream (fa :: t) =
      (fa.quality_issues.map fun issue => (fa.timestamp, issue)) ++ issueStream t := by
  simp [issueStream]

lemma signal_loss_stream_eq (records : List FrameAnalysis) :
    ((issueStream records).filter fun p => sigLossMatch p.snd).map
        (fun p => (p.fst, p.fst + 1)) =
      records.flatMap fun fa =>
        (fa.quality_issues.filter sigLossMatch).map
          fun _ => (fa.timestamp, fa.timestamp + 1) := by
  induction records with
  | nil => simp [issueStream]
  | cons fa t ih =>
    rw [issueStream_cons, List.filter_append, List.map_append, ih,
      List.flatMap_cons, List.filter_map, List.map_map]
    rfl

/-! ### Claim theorems: C2, C4, C6, C7, C9 -/

/-- Claim C2 (confirmed).  For every highlight run, the emitted `Highlight`'s
score equals the floor of the arithmetic mean of the member records' interest
scores (integer truncation, not rounding): every call of
`_create_highlight` on a nonempty member list produces
`score = ⌊(Σ scores) / count⌋`, and the two scenarios from the spec hold:
members with scores `[6,9,8]` yield score 7, and a run of scores `[7,8]`
yields score 7, not 8. -/
theorem highlight_score_is_floor_mean :
    (∀ (start end_ : ℚ) (frames : List FrameAnalysis), frames ≠ [] →
      (create_highlight start end_ frames).score =
        ⌊((frames.map FrameAnalysis.interest_score).sum : ℚ) / (frames.length : ℚ)⌋) ∧
    (detect_highlights 5 1
      [⟨0, "a", [], "", 6, []⟩, ⟨1, "b", [], "", 9, []⟩, ⟨2, "c", [], "", 8, []⟩]).map
        Highlight.score = [7] ∧
    (detect_highlights 7 1
      [⟨0, "a", [], "", 7, []⟩, ⟨1, "b", [], "", 8, []⟩]).map
        Highlight.score = [7] := by
  refine ⟨fun start end_ frames _hne => ?_, by decide, by decide⟩
  simpa [create_highlight] using
    fdiv_eq_floor (frames.map FrameAnalysis.interest_score).sum frames.length

/-- Witness for `highlight_score_is_floor_mean`: the general part applied to
the concrete member list with scores `[6,9,8]`. -/
theorem highlight_score_is_floor_mean_witness :
    (create_highlight 0 2
        [⟨0, "a", [], "", 6, []⟩, ⟨1, "b", [], "", 9, []⟩, ⟨2, "c", [], "", 8, []⟩]).score =
      ⌊((([⟨0, "a", [], "", 6, []⟩, ⟨1, "b", [], "", 9, []⟩,
            ⟨2, "c", [], "", 8, []⟩] : List FrameAnalysis).map
          FrameAnalysis.interest_score).sum : ℚ) /
        (([⟨0, "a", [], "", 6, []⟩, ⟨1, "b", [], "", 9, []⟩,
            ⟨2, "c", [], "", 8, []⟩] : List FrameAnalysis).length : ℚ)⌋ :=
  highlight_score_is_floor_mean.1 0 2
    [⟨0, "a", [], "", 6, []⟩, ⟨1, "b", [], "", 9, []⟩, ⟨2, "c", [], "", 8, []⟩]
    (by decide)

/-- Claim C4 (confirmed).  The quality assessor's `overallScore` starts at 10
and is decremented once per significant issue by the first matching category,
in the order blur (−2), artifact/dvr (−3), signal/loss (−4), fog/weather
(−1), no match (−0), and the result is clamped to `[1,10]`; in particular,
for 10 records each carrying issue `"dvr-artifact-heavy"`,
`dvrArtifactsDetected` is true and `overallScore` is 7. -/
theorem quality_score_deduction_rubric :
    (∀ records : List FrameAnalysis, records ≠ [] →
      (assess_quality records).overall_score =
        max 1 (min 10 (10 - ((assess_quality records).issues.map deduction).sum))) ∧
    (∀ issue : String,
      (strIn "blur" (pyLower issue) = true → deduction issue = 2) ∧
      (strIn "blur" (pyLower issue) = false →
        (strIn "artifact" (pyLower issue) || strIn "dvr" (pyLower issue)) = true →
        deduction issue = 3) ∧
      (strIn "blur" (pyLower issue) = false →
        (strIn "artifact" (pyLower issue) || strIn "dvr" (pyLower issue)) = false →
        (strIn "signal" (pyLower issue) || strIn "loss" (pyLower issue)) = true →
        deduction issue = 4) ∧
      (strIn "blur" (pyLower issue) = false →
        (strIn "artifact" (pyLower issue) || strIn "dvr" (pyLower issue)) = false →
        (strIn "signal" (pyLower issue) || strIn "loss" (pyLower issue)) = false →
        (strIn "fog" (pyLower issue) || strIn "weather" (pyLower issue)) = true →
        deduction issue = 1) ∧
      (strIn "blur" (pyLower issue) = false →
        (strIn "artifact" (pyLower issue) || strIn "dvr" (pyLower issue)) = false →
        (strIn "signal" (pyLower issue) || strIn "loss" (pyLower issue)) = false →
        (strIn "fog" (pyLower issue) || strIn "weather" (pyLower issue)) = false →
        deduction issue = 0)) ∧
    (∀ records : List FrameAnalysis,
      1 ≤ (assess_quality records).overall_score ∧
        (assess_quality records).overall_score ≤ 10) ∧
    ((assess_quality ((List.range 10).map fun n =>
        (⟨(n : ℚ), "r", [], "", 5, ["dvr-artifact-heavy"]⟩ : FrameAnalysis))).overall_score = 7 ∧
      (assess_quality ((List.range 10).map fun n =>
        (⟨(n : ℚ), "r", [], "", 5, ["dvr-artifact-heavy"]⟩ : FrameAnalysis))).dvr_artifacts_detected
        = true) := by
  refine ⟨fun records h => ?_, fun issue => ?_, fun records => ?_, by decide, by decide⟩
  · simp only [assess_quality, if_neg h, foldl_sub_deduction]
  · refine ⟨fun h1 => ?_, fun h1 h2 => ?_, fun h1 h2 h3 => ?_,
      fun h1 h2 h3 h4 => ?_, fun h1 h2 h3 h4 => ?_⟩ <;>
      simp [deduction, *]
  · by_cases h : records = []
    · subst h; exact ⟨by decide, by decide⟩
    · simp only [assess_quality, if_neg h]
      constructor
      · exact le_max_left _ _
      · exact max_le (by decide) (min_le_left _ _)

/-- Witness for `quality_score_deduction_rubric`: the clamp formula applied
to one concrete nonempty record list, and the rubric applied to the issue
string `"dvr-artifact-heavy"`. -/
theorem quality_score_deduction_rubric_witness :
    (assess_quality [⟨0, "r", [], "", 5, ["blurred"]⟩]).overall_score =
      max 1 (min 10 (10 -
        ((assess_quality [⟨0, "r", [], "", 5, ["blurred"]⟩]).issues.map deduction).sum)) ∧
    deduction "dvr-artifact-heavy" = 3 :=
  ⟨quality_score_deduction_rubric.1 [⟨0, "r", [], "", 5, ["blurred"]⟩] (by decide),
    (quality_score_deduction_rubric.2.1 "dvr-artifact-heavy").2.1 (by decide) (by decide)⟩

/-- Claim C6 (confirmed).  Static-segment classification precedence: a run
starting before 30 s is `PRE_ARM`; otherwise a run ending after
`videoDuration − 30` is `POST_LAND`; otherwise `DVR_FREEZE`.  The spec
scenario holds: a dissimilarity series constant at `0.01` over samples at
`t = 0..4` with threshold `0.02`, `minDuration 1`, `videoDuration 120`
yields exactly one `StaticSegment`, classified `PRE_ARM`. -/
theorem classify_static_precedence_scenario :
    (∀ start end_ video_duration : ℚ,
      (start < 30 → classify_static start end_ video_duration = StaticReason.PRE_ARM) ∧
      (¬ start < 30 → video_duration - 30 < end_ →
        classify_static start end_ video_duration = StaticReason.POST_LAND) ∧
      (¬ start < 30 → ¬ video_duration - 30 < end_ →
        classify_static start end_ video_duration = StaticReason.DVR_FREEZE)) ∧
    detect_static_segments (fun _ _ : Unit => 1/100) (1/50) 1
      [⟨0, ()⟩, ⟨1, ()⟩, ⟨2, ()⟩, ⟨3, ()⟩, ⟨4, ()⟩] 120 =
      [⟨0, 4, StaticReason.PRE_ARM, 9/10⟩] := by
  refine ⟨fun start end_ vd => ⟨fun h => ?_, fun h1 h2 => ?_, fun h1 h2 => ?_⟩, by decide⟩
  · simp [classify_static, h]
  · simp [classify_static, h1, h2]
  · simp [classify_static, h1, h2]

/-- Witness for `classify_static_precedence_scenario`: each precedence branch
applied at concrete inputs. -/
theorem classify_static_precedence_scenario_witness :
    classify_static 0 4 120 = StaticReason.PRE_ARM ∧
    classify_static 50 100 120 = StaticReason.POST_LAND ∧
    classify_static 50 60 120 = StaticReason.DVR_FREEZE :=
  ⟨(classify_static_precedence_scenario.1 0 4 120).1 (by decide),
    (classify_static_precedence_scenario.1 50 100 120).2.1 (by decide) (by decide),
    (classify_static_precedence_scenario.1 50 60 120).2.2 (by decide) (by decide)⟩

/-- Claim C7 counterexample.  The claim says each *record* whose issue list
matches signal/loss contributes one interval, so the number of intervals
should equal the number of matching records.  But the code appends one
interval per matching *issue string*: a single record carrying the two
matching issues `["signal", "loss"]` produces two intervals, while the
number of matching records is one. -/
theorem signal_loss_two_issues_one_record :
    (assess_quality [⟨0, "r", [], "", 5, ["signal", "loss"]⟩]).signal_loss_segments.length = 2 ∧
    (([⟨0, "r", [], "", 5, ["signal", "loss"]⟩] : List FrameAnalysis).filter
      fun fa => fa.quality_issues.any sigLossMatch).length = 1 ∧
    (2 : ℕ) ≠ 1 := by
  refine ⟨by decide, by decide, by decide⟩

/-- Claim C7 (corrected).  Amended claim: every *occurrence* of a
signal/loss-matching issue string in a record's quality-issue list
contributes its own approximate 1-second interval
`(record.timestamp, record.timestamp + 1)`, in record order; intervals are
not merged or deduplicated, and their number equals the total count of
matching issue occurrences across all records (a record with `k` matching
issues yields `k` intervals, not 1). -/
theorem signal_loss_intervals_per_matching_issue :
    ∀ records : List FrameAnalysis,
      (assess_quality records).signal_loss_segments =
        (records.flatMap fun fa =>
          (fa.quality_issues.filter sigLossMatch).map
            fun _ => (fa.timestamp, fa.timestamp + 1)) ∧
      (assess_quality records).signal_loss_segments.length =
        (records.map fun fa => (fa.quality_issues.filter sigLossMatch).length).sum := by
  intro records
  have hmain : (assess_quality records).signal_loss_segments =
      records.flatMap fun fa =>
        (fa.quality_issues.filter sigLossMatch).map
          fun _ => (fa.timestamp, fa.timestamp + 1) := by
    by_cases h : records = []
    · subst h; rfl
    · simp only [assess_quality, if_neg h]
      exact signal_loss_stream_eq records
  refine ⟨hmain, ?_⟩
  rw [hmain, List.length_flatMap]
  simp only [Function.comp_def, List.length_map]

/-- Claim C9 (confirmed).  On the empty record sequence, tag extraction
returns the empty list and quality assessment returns the schema's default
neutral assessment: `overallScore 5`, no issues, no artifacts, no
signal-loss intervals.  Both operations are total Lean functions, so no
exception behaviour exists. -/
theorem empty_input_defaults :
    (∀ tag_threshold : ℚ, extract_tags tag_threshold [] = []) ∧
    assess_quality [] = ({} : QualityMetadata) ∧
    (assess_quality []).overall_score = 5 ∧
    (assess_quality []).issues = [] ∧
    (assess_quality []).dvr_artifacts_detected = false ∧
    (assess_quality []).signal_loss_segments = [] :=
  ⟨fun _ => rfl, rfl, rfl, rfl, rfl, rfl⟩

/-- Claim C8 counterexample.  The claim says both detectors yield an empty run
list for series of fewer than 2 samples for *every* `minDuration`, including
0.  The static detector does (it guards `len(frames) < 2` explicitly), but
`detect_highlights` has no such guard: a single sample whose score passes the
threshold, with `minDuration = 0`, yields one degenerate zero-length
highlight. -/
theorem single_sample_highlight_min_duration_zero :
    (detect_highlights 7 0 [⟨0, "x", [], "", 8, []⟩]).length = 1 ∧
    ([(⟨0, "x", [], "", 8, []⟩ : FrameAnalysis)] : List FrameAnalysis).length < 2 :=
  ⟨by decide, by decide⟩

/-- Claim C8 (corrected).  Amended claim: the static detector returns the
empty list on every series of fewer than 2 samples, for every membership
threshold and every `minDuration` (including 0 and negative values); the
highlight detector returns the empty list on the empty series, and on a
single-sample series whenever `minDuration > 0` or the sample fails the
score threshold — but a single passing sample together with
`minDuration ≤ 0` yields one zero-length highlight. -/
theorem short_series_empty_runs :
    (∀ (α : Type) (d : α → α → ℚ) (threshold min_duration : ℚ)
        (frames : List (Frame α)) (video_duration : ℚ),
      frames.length < 2 →
      detect_static_segments d threshold min_duration frames video_duration = []) ∧
    (∀ (score_threshold : ℤ) (min_duration : ℚ),
      detect_highlights score_threshold min_duration [] = []) ∧
    (∀ (score_threshold : ℤ) (min_duration : ℚ) (fa : FrameAnalysis),
      0 < min_duration →
      detect_highlights score_threshold min_duration [fa] = []) ∧
    (∀ (score_threshold : ℤ) (min_duration : ℚ) (fa : FrameAnalysis),
      fa.interest_score < score_threshold →
      detect_highlights score_threshold min_duration [fa] = []) := by
  refine ⟨fun α d thr mD frames vd h => ?_, fun sthr mD => rfl,
    fun sthr mD fa hmD => ?_, fun sthr mD fa hfa => ?_⟩
  · simp [detect_static_segments, if_pos h]
  · by_cases hs : sthr ≤ fa.interest_score
    · have hz : ¬ mD ≤ fa.timestamp - fa.timestamp := by
        rw [sub_self]; exact not_le.mpr hmD
      simp [detect_highlights, hLoop, hs, hz, hmD]
    · simp [detect_highlights, hLoop, hs]
  · have hs : ¬ sthr ≤ fa.interest_score := not_le.mpr hfa
    simp [detect_highlights, hLoop, hs]

/-- Witness for `short_series_empty_runs`: each part applied at concrete
inputs. -/
theorem short_series_empty_runs_witness :
    detect_static_segments (fun _ _ : Unit => 0) 1 1 [⟨0, ()⟩] 10 = [] ∧
    detect_highlights 7 1 [] = [] ∧
    detect_highlights 7 1 [⟨0, "x", [], "", 8, []⟩] = [] ∧
    detect_highlights 7 1 [⟨0, "x", [], "", 5, []⟩] = [] :=
  ⟨short_series_empty_runs.1 Unit (fun _ _ => 0) 1 1 [⟨0, ()⟩] 10 (by decide),
    short_series_empty_runs.2.1 7 1,
    short_series_empty_runs.2.2.1 7 1 ⟨0, "x", [], "", 8, []⟩ (by decide),
    short_series_empty_runs.2.2.2 7 1 ⟨0, "x", [], "", 5, []⟩ (by decide)⟩

/-! ### Static-detector loop lemmas -/

section StaticLoop

variable {α : Type} (d : α → α → ℚ) (thr mD vd : ℚ)

lemma sLoop_false_start_irrel :
    ∀ (rest : List (Frame α)) (prev : Frame α) (s s' : ℚ),
      sLoop d thr mD vd prev rest false s = sLoop d thr mD vd prev rest false s' := by
  intro rest
  induction rest with
  | nil => intro prev s s'; rfl
  | cons cur t ih =>
    intro prev s s'
    by_cases h : d prev.image cur.image < thr
    · simp only [sLoop, if_pos h, Bool.false_eq_true, if_false]
    · simp only [sLoop, if_neg h, Bool.false_eq_true, if_false]
      exact ih cur s s'

lemma sLoop_run_exit :
    ∀ (b : List (Frame α)) (prev c : Frame α) (r : List (Frame α)) (start : ℚ),
      List.Chain' (fun f g => d f.image g.image < thr) (prev :: b) →
      ¬ d ((prev :: b).getLast (List.cons_ne_nil _ _)).image c.image < thr →
      sLoop d thr mD vd prev (b ++ c :: r) true start =
        (if mD ≤ c.timestamp - start then
          [⟨start, c.timestamp, classify_static start c.timestamp vd,
            max 0 (min 1
              (1 - d ((prev :: b).getLast (List.cons_ne_nil _ _)).image c.image / thr))⟩]
        else []) ++ sLoop d thr mD vd c r false start := by
  intro b
  induction b with
  | nil =>
    intro prev c r start _ hexit
    simp only [List.getLast_singleton] at hexit
    simp only [List.nil_append, sLoop, hexit, if_false, eq_self_iff_true, if_true,
      List.getLast_singleton]
  | cons b0 bt ih =>
    intro prev c r start hrun hexit
    have hd : d prev.image b0.image < thr := (List.chain'_cons.mp hrun).1
    have hrun' : List.Chain' (fun f g => d f.image g.image < thr) (b0 :: bt) :=
      (List.chain'_cons.mp hrun).2
    have hlast : ((prev :: b0 :: bt).getLast (List.cons_ne_nil _ _)) =
        ((b0 :: bt).getLast (List.cons_ne_nil _ _)) :=
      List.getLast_cons (List.cons_ne_nil _ _)
    rw [hlast] at hexit
    simp only [List.cons_append, sLoop, hd, if_true, eq_self_iff_true,
      List.append_eq]
    rw [ih b0 c r start hrun' hexit, hlast]

lemma sLoop_run_flush :
    ∀ (b : List (Frame α)) (prev : Frame α) (start : ℚ),
      List.Chain' (fun f g => d f.image g.image < thr) (prev :: b) →
      sLoop d thr mD vd prev b true start =
        (if mD ≤ ((prev :: b).getLast (List.cons_ne_nil _ _)).timestamp - start then
          [⟨start, ((prev :: b).getLast (List.cons_ne_nil _ _)).timestamp,
            classify_static start
              ((prev :: b).getLast (List.cons_ne_nil _ _)).timestamp vd, 9/10⟩]
        else []) := by
  intro b
  induction b with
  | nil =>
    intro prev start _
    simp only [sLoop, eq_self_iff_true, if_true, List.getLast_singleton]
  | cons b0 bt ih =>
    intro prev start hrun
    have hd : d prev.image b0.image < thr := (List.chain'_cons.mp hrun).1
    have hrun' : List.Chain' (fun f g => d f.image g.image < thr) (b0 :: bt) :=
      (List.chain'_cons.mp hrun).2
    have hlast : ((prev :: b0 :: bt).getLast (List.cons_ne_nil _ _)) =
        ((b0 :: bt).getLast (List.cons_ne_nil _ _)) :=
      List.getLast_cons (List.cons_ne_nil _ _)
    simp only [sLoop, hd, if_true, eq_self_iff_true]
    rw [ih b0 start hrun', hlast]

lemma sLoop_skip_failing :
    ∀ (xs : List (Frame α)) (prev : Frame α) (rest' : List (Frame α)) (s : ℚ),
      List.Chain' (fun f g => ¬ d f.image g.image < thr) (prev :: xs) →
      sLoop d thr mD vd prev (xs ++ rest') false s =
        sLoop d thr mD vd ((prev :: xs).getLast (List.cons_ne_nil _ _)) rest' false s := by
  intro xs
  induction xs with
  | nil => intro prev rest' s _; simp only [List.nil_append, List.getLast_singleton]
  | cons x xt ih =>
    intro prev rest' s hpre
    have hd : ¬ d prev.image x.image < thr := (List.chain'_cons.mp hpre).1
    have hpre' : List.Chain' (fun f g => ¬ d f.image g.image < thr) (x :: xt) :=
      (List.chain'_cons.mp hpre).2
    have hlast : ((prev :: x :: xt).getLast (List.cons_ne_nil _ _)) =
        ((x :: xt).getLast (List.cons_ne_nil _ _)) :=
      List.getLast_cons (List.cons_ne_nil _ _)
    simp only [List.cons_append, sLoop, hd, if_false, Bool.false_eq_true,
      List.append_eq]
    rw [ih x rest' s hpre', hlast]

lemma sLoop_eq_detect (c : Frame α) (r : List (Frame α)) :
    sLoop d thr mD vd c r false 0 = detect_static_segments d thr mD (c :: r) vd := by
  cases r with
  | nil => rfl
  | cons x t =>
    simp only [detect_static_segments]
    rw [if_neg]
    simp only [List.length_cons]
    omega

end StaticLoop

/-! ### Highlight-detector loop lemmas -/

section HighlightLoop

variable (sthr : ℤ) (mD : ℚ)

lemma hLoop_false_state_irrel :
    ∀ (rest : List FrameAnalysis) (prev : FrameAnalysis) (s s' : ℚ)
      (hf hf' : List FrameAnalysis),
      hLoop sthr mD prev rest false s hf = hLoop sthr mD prev rest false s' hf' := by
  intro rest
  induction rest with
  | nil => intro prev s s' hf hf'; rfl
  | cons cur t ih =>
    intro prev s s' hf hf'
    by_cases h : sthr ≤ cur.interest_score
    · simp only [hLoop, h, if_true, Bool.false_eq_true, if_false]
    · simp only [hLoop, h, if_false, Bool.false_eq_true]
      exact ih cur s s' hf hf'

lemma hLoop_run_exit :
    ∀ (bt : List FrameAnalysis) (prev c : FrameAnalysis) (r : List FrameAnalysis)
      (start : ℚ) (hf : List FrameAnalysis),
      (∀ x ∈ bt, sthr ≤ x.interest_score) →
      ¬ sthr ≤ c.interest_score →
      hLoop sthr mD prev (bt ++ c :: r) true start hf =
        (if mD ≤ ((prev :: bt).getLast (List.cons_ne_nil _ _)).timestamp - start then
          [create_highlight start
            ((prev :: bt).getLast (List.cons_ne_nil _ _)).timestamp (hf ++ bt)]
        else []) ++ hLoop sthr mD c r false start [] := by
  intro bt
  induction bt with
  | nil =>
    intro prev c r start hf _ hc
    simp only [List.nil_append, hLoop, hc, if_false, eq_self_iff_true, if_true,
      List.getLast_singleton, List.append_nil]
  | cons x xt ih =>
    intro prev c r start hf hpass hc
    have hx : sthr ≤ x.interest_score := hpass x (List.mem_cons_self _ _)
    have hpass' : ∀ y ∈ xt, sthr ≤ y.interest_score :=
      fun y hy => hpass y (List.mem_cons_of_mem _ hy)
    have hlast : ((prev :: x :: xt).getLast (List.cons_ne_nil _ _)) =
        ((x :: xt).getLast (List.cons_ne_nil _ _)) :=
      List.getLast_cons (List.cons_ne_nil _ _)
    simp only [List.cons_append, hLoop, hx, if_true, eq_self_iff_true,
      List.append_eq]
    rw [ih x c r start (hf ++ [x]) hpass' hc, hlast, List.append_assoc,
      List.singleton_append]

lemma hLoop_run_flush :
    ∀ (bt : List FrameAnalysis) (prev : FrameAnalysis) (start : ℚ)
      (hf : List FrameAnalysis),
      (∀ x ∈ bt, sthr ≤ x.interest_score) →
      hLoop sthr mD prev bt true start hf =
        (if mD ≤ ((prev :: bt).getLast (List.cons_ne_nil _ _)).timestamp - start then
          [create_highlight start
            ((prev :: bt).getLast (List.cons_ne_nil _ _)).timestamp (hf ++ bt)]
        else []) := by
  intro bt
  induction bt with
  | nil =>
    intro prev start hf _
    simp only [hLoop, eq_self_iff_true, if_true, List.getLast_singleton,
      List.append_nil]
  | cons x xt ih =>
    intro prev start hf hpass
    have hx : sthr ≤ x.interest_score := hpass x (List.mem_cons_self _ _)
    have hpass' : ∀ y ∈ xt, sthr ≤ y.interest_score :=
      fun y hy => hpass y (List.mem_cons_of_mem _ hy)
    have hlast : ((prev :: x :: xt).getLast (List.cons_ne_nil _ _)) =
        ((x :: xt).getLast (List.cons_ne_nil _ _)) :=
      List.getLast_cons (List.cons_ne_nil _ _)
    simp only [hLoop, hx, if_true, eq_self_iff_true]
    rw [ih x start (hf ++ [x]) hpass', hlast, List.append_assoc,
      List.singleton_append]

lemma hLoop_skip_failing :
    ∀ (xs : List FrameAnalysis) (prev : FrameAnalysis)
      (rest' : List FrameAnalysis) (s : ℚ) (hf : List FrameAnalysis),
      (∀ x ∈ xs, x.interest_score < sthr) →
      hLoop sthr mD prev (xs ++ rest') false s hf =
        hLoop sthr mD ((prev :: xs).getLast (List.cons_ne_nil _ _)) rest' false s hf := by
  intro xs
  induction xs with
  | nil => intro prev rest' s hf _; simp only [List.nil_append, List.getLast_singleton]
  | cons x xt ih =>
    intro prev rest' s hf hfail
    have hx : ¬ sthr ≤ x.interest_score :=
      not_le.mpr (hfail x (List.mem_cons_self _ _))
    have hfail' : ∀ y ∈ xt, y.interest_score < sthr :=
      fun y hy => hfail y (List.mem_cons_of_mem _ hy)
    have hlast : ((prev :: x :: xt).getLast (List.cons_ne_nil _ _)) =
        ((x :: xt).getLast (List.cons_ne_nil _ _)) :=
      List.getLast_cons (List.cons_ne_nil _ _)
    simp only [List.cons_append, hLoop, hx, if_false, Bool.false_eq_true,
      List.append_eq]
    rw [ih x rest' s hf hfail', hlast]

lemma hLoop_eq_detect (c : FrameAnalysis) (r : List FrameAnalysis)
    (hc : c.interest_score < sthr) :
    hLoop sthr mD c r false 0 [] = detect_highlights sthr mD (c :: r) := by
  simp only [detect_highlights, not_le.mpr hc, if_false]

end HighlightLoop

/-! ### Detector-level run decompositions -/

lemma detect_highlights_exit_decomp (sthr : ℤ) (mD : ℚ)
    (a b : List FrameAnalysis) (c : FrameAnalysis) (r : List FrameAnalysis)
    (hb : b ≠ [])
    (ha : ∀ x ∈ a, x.interest_score < sthr)
    (hpass : ∀ x ∈ b, sthr ≤ x.interest_score)
    (hc : c.interest_score < sthr) :
    detect_highlights sthr mD (a ++ b ++ c :: r) =
      (if mD ≤ (b.getLast hb).timestamp - (b.head hb).timestamp then
        [create_highlight (b.head hb).timestamp (b.getLast hb).timestamp b]
      else []) ++ detect_highlights sthr mD (c :: r) := by
  obtain ⟨b0, bt, rfl⟩ := List.exists_cons_of_ne_nil hb
  have hb0 : sthr ≤ b0.interest_score := hpass b0 (List.mem_cons_self _ _)
  have hbt : ∀ x ∈ bt, sthr ≤ x.interest_score :=
    fun x hx => hpass x (List.mem_cons_of_mem _ hx)
  have hcore : hLoop sthr mD b0 (bt ++ c :: r) true b0.timestamp [b0] =
      (if mD ≤ ((b0 :: bt).getLast (List.cons_ne_nil _ _)).timestamp - b0.timestamp then
        [create_highlight b0.timestamp
          ((b0 :: bt).getLast (List.cons_ne_nil _ _)).timestamp (b0 :: bt)]
      else []) ++ detect_highlights sthr mD (c :: r) := by
    rw [hLoop_run_exit sthr mD bt b0 c r b0.timestamp [b0] hbt (not_le.mpr hc),
      hLoop_false_state_irrel sthr mD r c b0.timestamp 0 [] [],
      hLoop_eq_detect sthr mD c r hc, List.singleton_append]
  cases a with
  | nil =>
    have h1 : detect_highlights sthr mD ((b0 :: bt) ++ c :: r) =
        hLoop sthr mD b0 (bt ++ c :: r) true b0.timestamp [b0] := by
      simp [detect_highlights, hb0]
    rw [List.nil_append, h1, hcore]
    simp only [List.head_cons]
  | cons a0 at' =>
    have ha0 : ¬ sthr ≤ a0.interest_score :=
      not_le.mpr (ha a0 (List.mem_cons_self _ _))
    have hat : ∀ x ∈ at', x.interest_score < sthr :=
      fun x hx => ha x (List.mem_cons_of_mem _ hx)
    have h1 : detect_highlights sthr mD ((a0 :: at') ++ (b0 :: bt) ++ c :: r) =
        hLoop sthr mD a0 (at' ++ (b0 :: (bt ++ c :: r))) false 0 [] := by
      simp [detect_highlights, ha0]
    have h2 : hLoop sthr mD ((a0 :: at').getLast (List.cons_ne_nil _ _))
          (b0 :: (bt ++ c :: r)) false 0 [] =
        hLoop sthr mD b0 (bt ++ c :: r) true b0.timestamp [b0] := by
      simp only [hLoop, hb0, if_true, eq_self_iff_true, Bool.false_eq_true, if_false]
    rw [h1, hLoop_skip_failing sthr mD at' a0 (b0 :: (bt ++ c :: r)) 0 [] hat, h2,
      hcore]
    simp only [List.head_cons]

lemma detect_highlights_flush_decomp (sthr : ℤ) (mD : ℚ)
    (a b : List FrameAnalysis) (hb : b ≠ [])
    (ha : ∀ x ∈ a, x.interest_score < sthr)
    (hpass : ∀ x ∈ b, sthr ≤ x.interest_score) :
    detect_highlights sthr mD (a ++ b) =
      (if mD ≤ (b.getLast hb).timestamp - (b.head hb).timestamp then
        [create_highlight (b.head hb).timestamp (b.getLast hb).timestamp b]
      else []) := by
  obtain ⟨b0, bt, rfl⟩ := List.exists_cons_of_ne_nil hb
  have hb0 : sthr ≤ b0.interest_score := hpass b0 (List.mem_cons_self _ _)
  have hbt : ∀ x ∈ bt, sthr ≤ x.interest_score :=
    fun x hx => hpass x (List.mem_cons_of_mem _ hx)
  have hcore : hLoop sthr mD b0 bt true b0.timestamp [b0] =
      (if mD ≤ ((b0 :: bt).getLast (List.cons_ne_nil _ _)).timestamp - b0.timestamp then
        [create_highlight b0.timestamp
          ((b0 :: bt).getLast (List.cons_ne_nil _ _)).timestamp (b0 :: bt)]
      else []) := by
    rw [hLoop_run_flush sthr mD bt b0 b0.timestamp [b0] hbt, List.singleton_append]
  cases a with
  | nil =>
    simp only [List.nil_append, detect_highlights, hb0, if_true, eq_self_iff_true,
      List.head_cons]
    exact hcore
  | cons a0 at' =>
    have ha0 : ¬ sthr ≤ a0.interest_score :=
      not_le.mpr (ha a0 (List.mem_cons_self _ _))
    have hat : ∀ x ∈ at', x.interest_score < sthr :=
      fun x hx => ha x (List.mem_cons_of_mem _ hx)
    simp only [List.cons_append, detect_highlights, ha0, if_false, List.append_eq]
    rw [hLoop_skip_failing sthr mD at' a0 (b0 :: bt) 0 [] hat,
      hLoop, if_pos hb0]
    simpa only [List.head_cons] using hcore

lemma getLast_append_singleton {α : Type} (l : List α) (x : α)
    (h : l ++ [x] ≠ []) : (l ++ [x]).getLast h = x := by
  simp [List.getLast_append]

lemma getLast_cons_append_singleton {α : Type} (a0 : α) (l : List α) (x : α) :
    (a0 :: (l ++ [x])).getLast (List.cons_ne_nil _ _) = x := by
  rw [List.getLast_cons (by simp : l ++ [x] ≠ [])]
  exact getLast_append_singleton l x _

lemma detect_static_exit_decomp {α : Type} (d : α → α → ℚ) (thr mD vd : ℚ)
    (a : List (Frame α)) (p : Frame α) (b : List (Frame α)) (c : Frame α)
    (r : List (Frame α)) (hb : b ≠ [])
    (hpre : List.Chain' (fun f g => ¬ d f.image g.image < thr) (a ++ [p]))
    (hrun : List.Chain' (fun f g => d f.image g.image < thr) (p :: b))
    (hexit : ¬ d ((p :: b).getLast (List.cons_ne_nil _ _)).image c.image < thr) :
    detect_static_segments d thr mD (a ++ p :: b ++ c :: r) vd =
      (if mD ≤ c.timestamp - p.timestamp then
        [⟨p.timestamp, c.timestamp, classify_static p.timestamp c.timestamp vd,
          max 0 (min 1
            (1 - d ((p :: b).getLast (List.cons_ne_nil _ _)).image c.image / thr))⟩]
      else []) ++ detect_static_segments d thr mD (c :: r) vd := by
  obtain ⟨b0, bt, rfl⟩ := List.exists_cons_of_ne_nil hb
  have hd : d p.image b0.image < thr := (List.chain'_cons.mp hrun).1
  have hrun' : List.Chain' (fun f g => d f.image g.image < thr) (b0 :: bt) :=
    (List.chain'_cons.mp hrun).2
  have hlast : ((p :: b0 :: bt).getLast (List.cons_ne_nil _ _)) =
      ((b0 :: bt).getLast (List.cons_ne_nil _ _)) :=
    List.getLast_cons (List.cons_ne_nil _ _)
  rw [hlast] at hexit
  have hcore : sLoop d thr mD vd p (b0 :: (bt ++ c :: r)) false 0 =
      (if mD ≤ c.timestamp - p.timestamp then
        [⟨p.timestamp, c.timestamp, classify_static p.timestamp c.timestamp vd,
          max 0 (min 1
            (1 - d ((b0 :: bt).getLast (List.cons_ne_nil _ _)).image c.image / thr))⟩]
      else []) ++ detect_static_segments d thr mD (c :: r) vd := by
    have h2 : sLoop d thr mD vd p (b0 :: (bt ++ c :: r)) false 0 =
        sLoop d thr mD vd b0 (bt ++ c :: r) true p.timestamp := by
      simp only [sLoop, hd, if_true, eq_self_iff_true, Bool.false_eq_true, if_false]
    rw [h2, sLoop_run_exit d thr mD vd bt b0 c r p.timestamp hrun' hexit,
      sLoop_false_start_irrel d thr mD vd r c p.timestamp 0,
      sLoop_eq_detect d thr mD vd c r]
  cases a with
  | nil =>
    have hlen : ¬ (p :: b0 :: (bt ++ c :: r)).length < 2 := by
      simp only [List.length_cons]; omega
    have h1 : detect_static_segments d thr mD (p :: b0 :: (bt ++ c :: r)) vd =
        sLoop d thr mD vd p (b0 :: (bt ++ c :: r)) false 0 := by
      simp only [detect_static_segments, if_neg hlen]
    simp only [List.nil_append, List.cons_append]
    rw [h1, hcore, hlast]
  | cons a0 at' =>
    rw [List.cons_append] at hpre
    have hlen : ¬ (a0 :: ((at' ++ [p]) ++ (b0 :: (bt ++ c :: r)))).length < 2 := by
      simp only [List.length_cons, List.length_append]; omega
    have h1 : detect_static_segments d thr mD
          (a0 :: ((at' ++ [p]) ++ (b0 :: (bt ++ c :: r)))) vd =
        sLoop d thr mD vd a0 ((at' ++ [p]) ++ (b0 :: (bt ++ c :: r))) false 0 := by
      simp only [detect_static_segments, if_neg hlen]
    simp only [List.cons_append]
    have hre : (at' ++ (p :: (b0 :: bt))) ++ (c :: r) =
        (at' ++ [p]) ++ (b0 :: (bt ++ c :: r)) := by simp
    rw [hre, h1,
      sLoop_skip_failing d thr mD vd (at' ++ [p]) a0 (b0 :: (bt ++ c :: r)) 0 hpre,
      getLast_cons_append_singleton a0 at' p, hcore, hlast]

lemma detect_static_flush_decomp {α : Type} (d : α → α → ℚ) (thr mD vd : ℚ)
    (a : List (Frame α)) (p : Frame α) (b : List (Frame α)) (hb : b ≠ [])
    (hpre : List.Chain' (fun f g => ¬ d f.image g.image < thr) (a ++ [p]))
    (hrun : List.Chain' (fun f g => d f.image g.image < thr) (p :: b)) :
    detect_static_segments d thr mD (a ++ p :: b) vd =
      (if mD ≤ ((p :: b).getLast (List.cons_ne_nil _ _)).timestamp - p.timestamp then
        [⟨p.timestamp, ((p :: b).getLast (List.cons_ne_nil _ _)).timestamp,
          classify_static p.timestamp
            ((p :: b).getLast (List.cons_ne_nil _ _)).timestamp vd, 9/10⟩]
      else []) := by
  obtain ⟨b0, bt, rfl⟩ := List.exists_cons_of_ne_nil hb
  have hd : d p.image b0.image < thr := (List.chain'_cons.mp hrun).1
  have hrun' : List.Chain' (fun f g => d f.image g.image < thr) (b0 :: bt) :=
    (List.chain'_cons.mp hrun).2
  have hlast : ((p :: b0 :: bt).getLast (List.cons_ne_nil _ _)) =
      ((b0 :: bt).getLast (List.cons_ne_nil _ _)) :=
    List.getLast_cons (List.cons_ne_nil _ _)
  have hcore : sLoop d thr mD vd p (b0 :: bt) false 0 =
      (if mD ≤ ((b0 :: bt).getLast (List.cons_ne_nil _ _)).timestamp - p.timestamp then
        [⟨p.timestamp, ((b0 :: bt).getLast (List.cons_ne_nil _ _)).timestamp,
          classify_static p.timestamp
            ((b0 :: bt).getLast (List.cons_ne_nil _ _)).timestamp vd, 9/10⟩]
      else []) := by
    have h2 : sLoop d thr mD vd p (b0 :: bt) false 0 =
        sLoop d thr mD vd b0 bt true p.timestamp := by
      simp only [sLoop, hd, if_true, eq_self_iff_true, Bool.false_eq_true, if_false]
    rw [h2, sLoop_run_flush d thr mD vd bt b0 p.timestamp hrun']
  cases a with
  | nil =>
    have hlen : ¬ (p :: b0 :: bt).length < 2 := by
      simp only [List.length_cons]; omega
    have h1 : detect_static_segments d thr mD (p :: b0 :: bt) vd =
        sLoop d thr mD vd p (b0 :: bt) false 0 := by
      simp only [detect_static_segments, if_neg hlen]
    rw [List.nil_append, h1, hcore, hlast]
  | cons a0 at' =>
    rw [List.cons_append] at hpre
    have hlen : ¬ (a0 :: ((at' ++ [p]) ++ (b0 :: bt))).length < 2 := by
      simp only [List.length_cons, List.length_append]; omega
    have h1 : detect_static_segments d thr mD
          (a0 :: ((at' ++ [p]) ++ (b0 :: bt))) vd =
        sLoop d thr mD vd a0 ((at' ++ [p]) ++ (b0 :: bt)) false 0 := by
      simp only [detect_static_segments, if_neg hlen]
    simp only [List.cons_append]
    have hre : at' ++ (p :: (b0 :: bt)) = (at' ++ [p]) ++ (b0 :: bt) := by simp
    rw [hre, h1,
      sLoop_skip_failing d thr mD vd (at' ++ [p]) a0 (b0 :: bt) 0 hpre,
      getLast_cons_append_singleton a0 at' p, hcore, hlast]

/-- Claim C1 counterexample.  The claim says that in *both* detectors a run
exited mid-series ends at the timestamp of the first sample for which the
membership predicate becomes false.  In the highlight detector the first
failing sample of the series `scores [10, 10, 1] at t = [0, 1, 2]` (threshold
5) is the third one, at `t = 2`; the claim therefore predicts the emitted
run's end to be `2`, but the code sets
`highlight_end = frame_analyses[i-1].timestamp`, the *last passing* sample's
timestamp `1`. -/
theorem highlight_end_not_first_failing :
    (detect_highlights 5 1
      [⟨0, "a", [], "", 10, []⟩, ⟨1, "b", [], "", 10, []⟩,
        ⟨2, "c", [], "", 1, []⟩]).map Highlight.end_ = [1] ∧
    (detect_highlights 5 1
      [⟨0, "a", [], "", 10, []⟩, ⟨1, "b", [], "", 10, []⟩,
        ⟨2, "c", [], "", 1, []⟩]).map Highlight.end_ ≠ [2] :=
  ⟨by decide, by decide⟩

/-- Claim C1 (corrected).  Run boundary conventions, amended on the highlight
exit boundary: for a first maximal run in either detector,

* the static detector anchors the run's start at the *previous* sample's
  timestamp `p.timestamp` and, when exited mid-series, ends it at the *first
  failing* sample's timestamp `c.timestamp`;
* the highlight detector anchors the run's start at the *current* (first
  passing) sample's timestamp and, when exited mid-series, ends it at the
  *last passing* sample's timestamp (not the first failing one, as the
  original claim said);
* in both detectors, a series that ends while still in a run closes the run
  at the last sample's timestamp. -/
theorem run_boundary_conventions :
    (∀ (α : Type) (d : α → α → ℚ) (thr mD vd : ℚ)
        (a : List (Frame α)) (p : Frame α) (b : List (Frame α)) (c : Frame α)
        (r : List (Frame α)), b ≠ [] →
      List.Chain' (fun f g => ¬ d f.image g.image < thr) (a ++ [p]) →
      List.Chain' (fun f g => d f.image g.image < thr) (p :: b) →
      ¬ d ((p :: b).getLast (List.cons_ne_nil _ _)).image c.image < thr →
      detect_static_segments d thr mD (a ++ p :: b ++ c :: r) vd =
        (if mD ≤ c.timestamp - p.timestamp then
          [⟨p.timestamp, c.timestamp, classify_static p.timestamp c.timestamp vd,
            max 0 (min 1
              (1 - d ((p :: b).getLast (List.cons_ne_nil _ _)).image c.image / thr))⟩]
        else []) ++ detect_static_segments d thr mD (c :: r) vd) ∧
    (∀ (α : Type) (d : α → α → ℚ) (thr mD vd : ℚ)
        (a : List (Frame α)) (p : Frame α) (b : List (Frame α)), b ≠ [] →
      List.Chain' (fun f g => ¬ d f.image g.image < thr) (a ++ [p]) →
      List.Chain' (fun f g => d f.image g.image < thr) (p :: b) →
      detect_static_segments d thr mD (a ++ p :: b) vd =
        (if mD ≤ ((p :: b).getLast (List.cons_ne_nil _ _)).timestamp - p.timestamp then
          [⟨p.timestamp, ((p :: b).getLast (List.cons_ne_nil _ _)).timestamp,
            classify_static p.timestamp
              ((p :: b).getLast (List.cons_ne_nil _ _)).timestamp vd, 9/10⟩]
        else [])) ∧
    (∀ (sthr : ℤ) (mD : ℚ) (a b : List FrameAnalysis) (c : FrameAnalysis)
        (r : List FrameAnalysis) (hb : b ≠ []),
      (∀ x ∈ a, x.interest_score < sthr) →
      (∀ x ∈ b, sthr ≤ x.interest_score) →
      c.interest_score < sthr →
      detect_highlights sthr mD (a ++ b ++ c :: r) =
        (if mD ≤ (b.getLast hb).timestamp - (b.head hb).timestamp then
          [create_highlight (b.head hb).timestamp (b.getLast hb).timestamp b]
        else []) ++ detect_highlights sthr mD (c :: r)) ∧
    (∀ (sthr : ℤ) (mD : ℚ) (a b : List FrameAnalysis) (hb : b ≠ []),
      (∀ x ∈ a, x.interest_score < sthr) →
      (∀ x ∈ b, sthr ≤ x.interest_score) →
      detect_highlights sthr mD (a ++ b) =
        (if mD ≤ (b.getLast hb).timestamp - (b.head hb).timestamp then
          [create_highlight (b.head hb).timestamp (b.getLast hb).timestamp b]
        else [])) :=
  ⟨fun α d thr mD vd a p b c r hb hpre hrun hexit =>
      @detect_static_exit_decomp α d thr mD vd a p b c r hb hpre hrun hexit,
    fun α d thr mD vd a p b hb hpre hrun =>
      @detect_static_flush_decomp α d thr mD vd a p b hb hpre hrun,
    fun sthr mD a b c r hb ha hpass hc =>
      detect_highlights_exit_decomp sthr mD a b c r hb ha hpass hc,
    fun sthr mD a b hb ha hpass =>
      detect_highlights_flush_decomp sthr mD a b hb ha hpass⟩

/-- Witness for `run_boundary_conventions`: all four boundary conventions
applied at concrete 2- and 3-sample series, with the resulting run lists
evaluated.  The dissimilarity function is `d x y = y/100`, so the pair
`(0,1)` has dissimilarity `0.01 < 0.02` (a passing pair) and the pair
`(1,2)` has dissimilarity `0.02 ≥ 0.02` (the exit pair). -/
theorem run_boundary_conventions_witness :
    detect_static_segments (fun _ y : ℚ => y/100) (1/50) 1
        [⟨0, 0⟩, ⟨1, 1⟩, ⟨2, 2⟩] 120 =
      [⟨0, 2, StaticReason.PRE_ARM, 0⟩] ∧
    detect_static_segments (fun _ y : ℚ => y/100) (1/50) 1
        [⟨0, 0⟩, ⟨1, 1⟩] 120 =
      [⟨0, 1, StaticReason.PRE_ARM, 9/10⟩] ∧
    detect_highlights 5 1
        [⟨0, "a", [], "", 10, []⟩, ⟨1, "b", [], "", 10, []⟩,
          ⟨2, "c", [], "", 1, []⟩] =
      [⟨0, 1, 10, "a", []⟩] ∧
    detect_highlights 5 1
        [⟨0, "a", [], "", 10, []⟩, ⟨1, "b", [], "", 10, []⟩] =
      [⟨0, 1, 10, "a", []⟩] :=
  ⟨(run_boundary_conventions.1 ℚ (fun _ y => y/100) (1/50) 1 120
      [] ⟨0, 0⟩ [⟨1, 1⟩] ⟨2, 2⟩ [] (List.cons_ne_nil _ _) (by simp)
      (List.chain'_pair.mpr (by decide)) (by decide)).trans (by decide),
    (run_boundary_conventions.2.1 ℚ (fun _ y => y/100) (1/50) 1 120
      [] ⟨0, 0⟩ [⟨1, 1⟩] (List.cons_ne_nil _ _) (by simp)
      (List.chain'_pair.mpr (by decide))).trans (by decide),
    (run_boundary_conventions.2.2.1 5 1
      [] [⟨0, "a", [], "", 10, []⟩, ⟨1, "b", [], "", 10, []⟩]
      ⟨2, "c", [], "", 1, []⟩ [] (by decide) (by decide) (by decide)
      (by decide)).trans (by decide),
    (run_boundary_conventions.2.2.2 5 1
      [] [⟨0, "a", [], "", 10, []⟩, ⟨1, "b", [], "", 10, []⟩]
      (by decide) (by decide) (by decide)).trans (by decide)⟩

lemma clamp_conf_zero {thr diff : ℚ} (hthr : 0 < thr) (hd : ¬ diff < thr) :
    max 0 (min 1 (1 - diff / thr)) = 0 := by
  have h1 : (1 : ℚ) ≤ diff / thr := (one_le_div hthr).mpr (not_lt.mp hd)
  have h2 : 1 - diff / thr ≤ 0 := by linarith
  rw [min_eq_right (h2.trans (by norm_num)), max_eq_left h2]

lemma sLoop_conf {α : Type} (d : α → α → ℚ) (thr mD vd : ℚ) (hthr : 0 < thr) :
    ∀ (rest : List (Frame α)) (prev : Frame α) (inS : Bool) (start : ℚ),
      ∀ s ∈ sLoop d thr mD vd prev rest inS start,
        s.confidence = 0 ∨ s.confidence = 9/10 := by
  intro rest
  induction rest with
  | nil =>
    intro prev inS start s hs
    cases inS with
    | false => simp [sLoop] at hs
    | true =>
      by_cases hdur : mD ≤ prev.timestamp - start
      · simp only [sLoop, eq_self_iff_true, if_true, if_pos hdur,
          List.mem_singleton] at hs
        subst hs
        exact Or.inr rfl
      · simp [sLoop, hdur] at hs
  | cons cur t ih =>
    intro prev inS start s hs
    by_cases hd : d prev.image cur.image < thr
    · cases inS with
      | true =>
        rw [show sLoop d thr mD vd prev (cur :: t) true start =
            sLoop d thr mD vd cur t true start from by simp [sLoop, hd]] at hs
        exact ih cur true start s hs
      | false =>
        rw [show sLoop d thr mD vd prev (cur :: t) false start =
            sLoop d thr mD vd cur t true prev.timestamp from by simp [sLoop, hd]] at hs
        exact ih cur true prev.timestamp s hs
    · cases inS with
      | false =>
        rw [show sLoop d thr mD vd prev (cur :: t) false start =
            sLoop d thr mD vd cur t false start from by simp [sLoop, hd]] at hs
        exact ih cur false start s hs
      | true =>
        rw [show sLoop d thr mD vd prev (cur :: t) true start =
            (if mD ≤ cur.timestamp - start then
              [⟨start, cur.timestamp, classify_static start cur.timestamp vd,
                max 0 (min 1 (1 - d prev.image cur.image / thr))⟩]
            else []) ++ sLoop d thr mD vd cur t false start
            from by simp [sLoop, hd]] at hs
        rcases List.mem_append.mp hs with hmem | hmem
        · by_cases hdur : mD ≤ cur.timestamp - start
          · rw [if_pos hdur, List.mem_singleton] at hmem
            subst hmem
            exact Or.inl (clamp_conf_zero hthr hd)
          · rw [if_neg hdur] at hmem
            exact absurd hmem (List.not_mem_nil s)
        · exact ih cur false start s hmem

/-- Claim C10 (confirmed).  Every static segment's confidence is either `0` or
the fixed flush value `0.9` (for positive thresholds), and a segment closed
mid-series by an exit sample always carries confidence exactly `0`: the exit
dissimilarity is `≥ threshold`, so `1 − exitDiff/threshold ≤ 0`, which the
clamp to `[0,1]` sends to `0`.  Only segments closed by the end of the
series carry the nonzero confidence `0.9`. -/
theorem static_confidence_values :
    (∀ (α : Type) (d : α → α → ℚ) (thr mD vd : ℚ) (frames : List (Frame α)),
      0 < thr →
      ∀ s ∈ detect_static_segments d thr mD frames vd,
        s.confidence = 0 ∨ s.confidence = 9/10) ∧
    (∀ (α : Type) (d : α → α → ℚ) (thr mD vd : ℚ)
        (a : List (Frame α)) (p : Frame α) (b : List (Frame α)) (c : Frame α)
        (r : List (Frame α)), b ≠ [] → 0 < thr →
      List.Chain' (fun f g => ¬ d f.image g.image < thr) (a ++ [p]) →
      List.Chain' (fun f g => d f.image g.image < thr) (p :: b) →
      ¬ d ((p :: b).getLast (List.cons_ne_nil _ _)).image c.image < thr →
      mD ≤ c.timestamp - p.timestamp →
      detect_static_segments d thr mD (a ++ p :: b ++ c :: r) vd =
        ⟨p.timestamp, c.timestamp, classify_static p.timestamp c.timestamp vd, 0⟩ ::
          detect_static_segments d thr mD (c :: r) vd) := by
  constructor
  · intro α d thr mD vd frames hthr s hs
    cases frames with
    | nil => simp [detect_static_segments] at hs
    | cons f rest =>
      simp only [detect_static_segments] at hs
      by_cases hlen : (f :: rest).length < 2
      · rw [if_pos hlen] at hs
        exact absurd hs (List.not_mem_nil s)
      · rw [if_neg hlen] at hs
        exact sLoop_conf d thr mD vd hthr rest f false 0 s hs
  · intro α d thr mD vd a p b c r hb hthr hpre hrun hexit hdur
    rw [detect_static_exit_decomp d thr mD vd a p b c r hb hpre hrun hexit,
      if_pos hdur, clamp_conf_zero hthr hexit, List.singleton_append]

/-- Witness for `static_confidence_values`: the membership part applied to
the segment emitted by the 5-sample constant-dissimilarity series (a flush
segment, confidence `0.9`), and the exit part applied to a 3-sample series
whose run is exited at `t = 2` (confidence `0`). -/
theorem static_confidence_values_witness :
    ((⟨0, 4, StaticReason.PRE_ARM, 9/10⟩ : StaticSegment).confidence = 0 ∨
      (⟨0, 4, StaticReason.PRE_ARM, 9/10⟩ : StaticSegment).confidence = 9/10) ∧
    detect_static_segments (fun _ y : ℚ => y/100) (1/50) 1
        [⟨0, 0⟩, ⟨1, 1⟩, ⟨2, 2⟩] 120 =
      [⟨0, 2, StaticReason.PRE_ARM, 0⟩] :=
  ⟨static_confidence_values.1 Unit (fun _ _ => 1/100) (1/50) 1 120
      [⟨0, ()⟩, ⟨1, ()⟩, ⟨2, ()⟩, ⟨3, ()⟩, ⟨4, ()⟩] (by decide)
      ⟨0, 4, StaticReason.PRE_ARM, 9/10⟩ (by decide),
    (static_confidence_values.2 ℚ (fun _ y => y/100) (1/50) 1 120
      [] ⟨0, 0⟩ [⟨1, 1⟩] ⟨2, 2⟩ [] (List.cons_ne_nil _ _) (by decide) (by simp)
      (List.chain'_pair.mpr (by decide)) (by decide) (by decide)).trans (by decide)⟩

lemma create_highlight_start (st e : ℚ) (fs : List FrameAnalysis) :
    (create_highlight st e fs).start = st := rfl

lemma create_highlight_end (st e : ℚ) (fs : List FrameAnalysis) :
    (create_highlight st e fs).end_ = e := rfl

lemma sLoop_inv {α : Type} (d : α → α → ℚ) (thr mD vd : ℚ) :
    ∀ (rest : List (Frame α)) (prev : Frame α) (inS : Bool) (start : ℚ),
      List.Chain' (fun f g => f.timestamp ≤ g.timestamp) (prev :: rest) →
      (inS = true → start ≤ prev.timestamp) →
      (∀ s ∈ sLoop d thr mD vd prev rest inS start,
        mD ≤ s.end_ - s.start ∧ s.start ≤ s.end_ ∧
          (if inS then start else prev.timestamp) ≤ s.start) ∧
      List.Pairwise (fun s1 s2 => s1.end_ ≤ s2.start)
        (sLoop d thr mD vd prev rest inS start) := by
  intro rest
  induction rest with
  | nil =>
    intro prev inS start _hch hst
    cases inS with
    | false =>
      exact ⟨fun s hs => absurd hs (by simp [sLoop]), by simp [sLoop]⟩
    | true =>
      by_cases hdur : mD ≤ prev.timestamp - start
      · constructor
        · intro s hs
          simp only [sLoop, eq_self_iff_true, if_true, if_pos hdur,
            List.mem_singleton] at hs
          subst hs
          exact ⟨hdur, hst rfl, by simp⟩
        · simp only [sLoop, eq_self_iff_true, if_true, if_pos hdur]
          exact List.pairwise_singleton _ _
      · constructor
        · intro s hs
          simp only [sLoop, eq_self_iff_true, if_true, if_neg hdur] at hs
          exact absurd hs (List.not_mem_nil s)
        · simp only [sLoop, eq_self_iff_true, if_true, if_neg hdur]
          exact List.Pairwise.nil
  | cons cur t ih =>
    intro prev inS start hch hst
    have hpc : prev.timestamp ≤ cur.timestamp := (List.chain'_cons.mp hch).1
    have hch' : List.Chain' (fun f g => f.timestamp ≤ g.timestamp) (cur :: t) :=
      (List.chain'_cons.mp hch).2
    by_cases hd : d prev.image cur.image < thr
    · cases inS with
      | true =>
        have heq : sLoop d thr mD vd prev (cur :: t) true start =
            sLoop d thr mD vd cur t true start := by simp [sLoop, hd]
        have ihr := ih cur true start hch' (fun _ => (hst rfl).trans hpc)
        rw [heq]
        exact ⟨fun s hs => ihr.1 s hs, ihr.2⟩
      | false =>
        have heq : sLoop d thr mD vd prev (cur :: t) false start =
            sLoop d thr mD vd cur t true prev.timestamp := by simp [sLoop, hd]
        have ihr := ih cur true prev.timestamp hch' (fun _ => hpc)
        rw [heq]
        refine ⟨fun s hs => ?_, ihr.2⟩
        obtain ⟨h1, h2, h3⟩ := ihr.1 s hs
        exact ⟨h1, h2, by simpa using h3⟩
    · cases inS with
      | false =>
        have heq : sLoop d thr mD vd prev (cur :: t) false start =
            sLoop d thr mD vd cur t false start := by simp [sLoop, hd]
        have ihr := ih cur false start hch' (fun h => absurd h (by simp))
        rw [heq]
        refine ⟨fun s hs => ?_, ihr.2⟩
        obtain ⟨h1, h2, h3⟩ := ihr.1 s hs
        have hc : cur.timestamp ≤ s.start := by simpa using h3
        exact ⟨h1, h2, by simpa using hpc.trans hc⟩
      | true =>
        have heq : sLoop d thr mD vd prev (cur :: t) true start =
            (if mD ≤ cur.timestamp - start then
              [⟨start, cur.timestamp, classify_static start cur.timestamp vd,
                max 0 (min 1 (1 - d prev.image cur.image / thr))⟩]
            else []) ++ sLoop d thr mD vd cur t false start := by simp [sLoop, hd]
        have ihr := ih cur false start hch' (fun h => absurd h (by simp))
        have hbound : ∀ s ∈ sLoop d thr mD vd cur t false start,
            cur.timestamp ≤ s.start :=
          fun s hs => by simpa using (ihr.1 s hs).2.2
        rw [heq]
        by_cases hdur : mD ≤ cur.timestamp - start
        · rw [if_pos hdur, List.singleton_append]
          constructor
          · intro s hs
            rcases List.mem_cons.mp hs with hseg | hmem
            · subst hseg
              exact ⟨hdur, (hst rfl).trans hpc, by simp⟩
            · obtain ⟨h1, h2, _⟩ := ihr.1 s hmem
              exact ⟨h1, h2,
                by simpa using ((hst rfl).trans hpc).trans (hbound s hmem)⟩
          · exact List.pairwise_cons.mpr ⟨fun s hs => hbound s hs, ihr.2⟩
        · rw [if_neg hdur, List.nil_append]
          refine ⟨fun s hs => ?_, ihr.2⟩
          obtain ⟨h1, h2, _⟩ := ihr.1 s hs
          exact ⟨h1, h2, by simpa using ((hst rfl).trans hpc).trans (hbound s hs)⟩

lemma hLoop_inv (sthr : ℤ) (mD : ℚ) :
    ∀ (rest : List FrameAnalysis) (prev : FrameAnalysis) (inH : Bool)
      (start : ℚ) (hf : List FrameAnalysis),
      List.Chain' (fun f g => f.timestamp ≤ g.timestamp) (prev :: rest) →
      (inH = true → start ≤ prev.timestamp) →
      (∀ h ∈ hLoop sthr mD prev rest inH start hf,
        mD ≤ h.end_ - h.start ∧ h.start ≤ h.end_ ∧
          (if inH then start else prev.timestamp) ≤ h.start) ∧
      List.Pairwise (fun h1 h2 => h1.end_ ≤ h2.start)
        (hLoop sthr mD prev rest inH start hf) := by
  intro rest
  induction rest with
  | nil =>
    intro prev inH start hf _hch hst
    cases inH with
    | false =>
      exact ⟨fun h hh => absurd hh (by simp [hLoop]), by simp [hLoop]⟩
    | true =>
      by_cases hdur : mD ≤ prev.timestamp - start
      · constructor
        · intro h hh
          simp only [hLoop, eq_self_iff_true, if_true, if_pos hdur,
            List.mem_singleton] at hh
          subst hh
          exact ⟨hdur, hst rfl, by simp [create_highlight_start]⟩
        · simp only [hLoop, eq_self_iff_true, if_true, if_pos hdur]
          exact List.pairwise_singleton _ _
      · constructor
        · intro h hh
          simp only [hLoop, eq_self_iff_true, if_true, if_neg hdur] at hh
          exact absurd hh (List.not_mem_nil h)
        · simp only [hLoop, eq_self_iff_true, if_true, if_neg hdur]
          exact List.Pairwise.nil
  | cons cur t ih =>
    intro prev inH start hf hch hst
    have hpc : prev.timestamp ≤ cur.timestamp := (List.chain'_cons.mp hch).1
    have hch' : List.Chain' (fun f g => f.timestamp ≤ g.timestamp) (cur :: t) :=
      (List.chain'_cons.mp hch).2
    by_cases hsc : sthr ≤ cur.interest_score
    · cases inH with
      | true =>
        have heq : hLoop sthr mD prev (cur :: t) true start hf =
            hLoop sthr mD cur t true start (hf ++ [cur]) := by simp [hLoop, hsc]
        have ihr := ih cur true start (hf ++ [cur]) hch' (fun _ => (hst rfl).trans hpc)
        rw [heq]
        exact ⟨fun h hh => ihr.1 h hh, ihr.2⟩
      | false =>
        have heq : hLoop sthr mD prev (cur :: t) false start hf =
            hLoop sthr mD cur t true cur.timestamp [cur] := by simp [hLoop, hsc]
        have ihr := ih cur true cur.timestamp [cur] hch' (fun _ => le_refl _)
        rw [heq]
        refine ⟨fun h hh => ?_, ihr.2⟩
        obtain ⟨h1, h2, h3⟩ := ihr.1 h hh
        have hc : cur.timestamp ≤ h.start := by simpa using h3
        exact ⟨h1, h2, by simpa using hpc.trans hc⟩
    · cases inH with
      | false =>
        have heq : hLoop sthr mD prev (cur :: t) false start hf =
            hLoop sthr mD cur t false start hf := by simp [hLoop, hsc]
        have ihr := ih cur false start hf hch' (fun h => absurd h (by simp))
        rw [heq]
        refine ⟨fun h hh => ?_, ihr.2⟩
        obtain ⟨h1, h2, h3⟩ := ihr.1 h hh
        have hc : cur.timestamp ≤ h.start := by simpa using h3
        exact ⟨h1, h2, by simpa using hpc.trans hc⟩
      | true =>
        have heq : hLoop sthr mD prev (cur :: t) true start hf =
            (if mD ≤ prev.timestamp - start then
              [create_highlight start prev.timestamp hf]
            else []) ++ hLoop sthr mD cur t false start [] := by simp [hLoop, hsc]
        have ihr := ih cur false start [] hch' (fun h => absurd h (by simp))
        have hbound : ∀ h ∈ hLoop sthr mD cur t false start [],
            cur.timestamp ≤ h.start :=
          fun h hh => by simpa using (ihr.1 h hh).2.2
        rw [heq]
        by_cases hdur : mD ≤ prev.timestamp - start
        · rw [if_pos hdur, List.singleton_append]
          constructor
          · intro h hh
            rcases List.mem_cons.mp hh with hseg | hmem
            · subst hseg
              exact ⟨hdur, hst rfl, by simp [create_highlight_start]⟩
            · obtain ⟨h1, h2, _⟩ := ihr.1 h hmem
              exact ⟨h1, h2,
                by simpa using ((hst rfl).trans hpc).trans (hbound h hmem)⟩
          · refine List.pairwise_cons.mpr ⟨fun h hh => ?_, ihr.2⟩
            have : cur.timestamp ≤ h.start := hbound h hh
            calc (create_highlight start prev.timestamp hf).end_
                = prev.timestamp := create_highlight_end _ _ _
              _ ≤ cur.timestamp := hpc
              _ ≤ h.start := this
        · rw [if_neg hdur, List.nil_append]
          refine ⟨fun h hh => ?_, ihr.2⟩
          obtain ⟨h1, h2, _⟩ := ihr.1 h hh
          exact ⟨h1, h2, by simpa using ((hst rfl).trans hpc).trans (hbound h hh)⟩

/-- Claim C3 (confirmed).  For every input series with non-decreasing
timestamps, every emitted run (static segment or highlight) satisfies
`end − start ≥ minDuration` (and `start ≤ end`), no two emitted runs overlap
(each run ends no later than the next one starts), and the emitted runs are
in non-decreasing start-time order. -/
theorem emitted_runs_invariants :
    (∀ (α : Type) (d : α → α → ℚ) (thr mD vd : ℚ) (frames : List (Frame α)),
      List.Chain' (fun f g => f.timestamp ≤ g.timestamp) frames →
      (∀ s ∈ detect_static_segments d thr mD frames vd,
        mD ≤ s.end_ - s.start ∧ s.start ≤ s.end_) ∧
      List.Pairwise (fun s1 s2 => s1.end_ ≤ s2.start)
        (detect_static_segments d thr mD frames vd) ∧
      List.Pairwise (fun s1 s2 => s1.start ≤ s2.start)
        (detect_static_segments d thr mD frames vd)) ∧
    (∀ (sthr : ℤ) (mD : ℚ) (records : List FrameAnalysis),
      List.Chain' (fun f g => f.timestamp ≤ g.timestamp) records →
      (∀ h ∈ detect_highlights sthr mD records,
        mD ≤ h.end_ - h.start ∧ h.start ≤ h.end_) ∧
      List.Pairwise (fun h1 h2 => h1.end_ ≤ h2.start)
        (detect_highlights sthr mD records) ∧
      List.Pairwise (fun h1 h2 => h1.start ≤ h2.start)
        (detect_highlights sthr mD records)) := by
  constructor
  · intro α d thr mD vd frames hch
    cases frames with
    | nil =>
      exact ⟨fun s hs => absurd hs (by simp [detect_static_segments]),
        by simp [detect_static_segments], by simp [detect_static_segments]⟩
    | cons f rest =>
      by_cases hlen : (f :: rest).length < 2
      · have hempty : detect_static_segments d thr mD (f :: rest) vd = [] := by
          simp only [detect_static_segments]
          rw [if_pos hlen]
        rw [hempty]
        exact ⟨fun s hs => absurd hs (List.not_mem_nil s), List.Pairwise.nil,
          List.Pairwise.nil⟩
      · have hdet : detect_static_segments d thr mD (f :: rest) vd =
            sLoop d thr mD vd f rest false 0 := by
          simp only [detect_static_segments]
          rw [if_neg hlen]
        have hinv := sLoop_inv d thr mD vd rest f false 0 hch
          (fun h => absurd h (by simp))
        rw [hdet]
        exact ⟨fun s hs => ⟨(hinv.1 s hs).1, (hinv.1 s hs).2.1⟩, hinv.2,
          List.Pairwise.imp_of_mem
            (fun ha _hb hr => ((hinv.1 _ ha).2.1).trans hr) hinv.2⟩
  · intro sthr mD records hch
    cases records with
    | nil =>
      exact ⟨fun h hh => absurd hh (by simp [detect_highlights]),
        by simp [detect_highlights], by simp [detect_highlights]⟩
    | cons fa rest =>
      by_cases hp : sthr ≤ fa.interest_score
      · have hdet : detect_highlights sthr mD (fa :: rest) =
            hLoop sthr mD fa rest true fa.timestamp [fa] := by
          simp only [detect_highlights]
          rw [if_pos hp]
        have hinv := hLoop_inv sthr mD rest fa true fa.timestamp [fa] hch
          (fun _ => le_refl _)
        rw [hdet]
        exact ⟨fun h hh => ⟨(hinv.1 h hh).1, (hinv.1 h hh).2.1⟩, hinv.2,
          List.Pairwise.imp_of_mem
            (fun ha _hb hr => ((hinv.1 _ ha).2.1).trans hr) hinv.2⟩
      · have hdet : detect_highlights sthr mD (fa :: rest) =
            hLoop sthr mD fa rest false 0 [] := by
          simp only [detect_highlights]
          rw [if_neg hp]
        have hinv := hLoop_inv sthr mD rest fa false 0 [] hch
          (fun h => absurd h (by simp))
        rw [hdet]
        exact ⟨fun h hh => ⟨(hinv.1 h hh).1, (hinv.1 h hh).2.1⟩, hinv.2,
          List.Pairwise.imp_of_mem
            (fun ha _hb hr => ((hinv.1 _ ha).2.1).trans hr) hinv.2⟩

/-- Witness for `emitted_runs_invariants`: the duration/order facts applied
to the segment emitted by a concrete 3-sample static series, and to the
highlight emitted for the concrete score series `[6, 9, 8]`. -/
theorem emitted_runs_invariants_witness :
    ((1 : ℚ) ≤ (⟨0, 2, StaticReason.PRE_ARM, 0⟩ : StaticSegment).end_ -
        (⟨0, 2, StaticReason.PRE_ARM, 0⟩ : StaticSegment).start ∧
      (⟨0, 2, StaticReason.PRE_ARM, 0⟩ : StaticSegment).start ≤
        (⟨0, 2, StaticReason.PRE_ARM, 0⟩ : StaticSegment).end_) ∧
    List.Pairwise (fun s1 s2 => s1.end_ ≤ s2.start)
      (detect_static_segments (fun _ y : ℚ => y/100) (1/50) 1
        [⟨0, 0⟩, ⟨1, 1⟩, ⟨2, 2⟩] 120) ∧
    ((1 : ℚ) ≤ (⟨0, 2, 7, "b", []⟩ : Highlight).end_ -
        (⟨0, 2, 7, "b", []⟩ : Highlight).start ∧
      (⟨0, 2, 7, "b", []⟩ : Highlight).start ≤
        (⟨0, 2, 7, "b", []⟩ : Highlight).end_) ∧
    List.Pairwise (fun h1 h2 => h1.end_ ≤ h2.start)
      (detect_highlights 5 1
        [⟨0, "a", [], "", 6, []⟩, ⟨1, "b", [], "", 9, []⟩,
          ⟨2, "c", [], "", 8, []⟩]) := by
  have hchainS : List.Chain'
      (fun f g : Frame ℚ => f.timestamp ≤ g.timestamp)
      [⟨0, 0⟩, ⟨1, 1⟩, ⟨2, 2⟩] :=
    List.chain'_cons.mpr ⟨by decide, List.chain'_pair.mpr (by decide)⟩
  have hchainH : List.Chain'
      (fun f g : FrameAnalysis => f.timestamp ≤ g.timestamp)
      [⟨0, "a", [], "", 6, []⟩, ⟨1, "b", [], "", 9, []⟩, ⟨2, "c", [], "", 8, []⟩] :=
    List.chain'_cons.mpr ⟨by decide, List.chain'_pair.mpr (by decide)⟩
  have hs := emitted_runs_invariants.1 ℚ (fun _ y => y/100) (1/50) 1 120
    [⟨0, 0⟩, ⟨1, 1⟩, ⟨2, 2⟩] hchainS
  have hh := emitted_runs_invariants.2 5 1
    [⟨0, "a", [], "", 6, []⟩, ⟨1, "b", [], "", 9, []⟩, ⟨2, "c", [], "", 8, []⟩]
    hchainH
  exact ⟨hs.1 ⟨0, 2, StaticReason.PRE_ARM, 0⟩ (by decide), hs.2.1,
    hh.1 ⟨0, 2, 7, "b", []⟩ (by decide), hh.2.1⟩

/-! ### Counter and tag-extraction lemmas -/

lemma lookupCount_bump (l : List (String × ℕ)) (k t : String) :
    lookupCount (bump l k) t = lookupCount l t + if k = t then 1 else 0 := by
  induction l with
  | nil =>
    by_cases h : k = t <;> simp [bump, lookupCount, h]
  | cons p l ih =>
    obtain ⟨k', c⟩ := p
    by_cases hk : k' = k
    · subst hk
      by_cases ht : k' = t <;> simp [bump, lookupCount, ht]
    · by_cases ht : k' = t
      · subst ht
        have : ¬ k = k' := fun h => hk h.symm
        simp [bump, lookupCount, hk, this]
      · simp [bump, lookupCount, hk, ht, ih]

lemma lookupCount_foldl_bump :
    ∀ (obs : List String) (acc : List (String × ℕ)) (t : String),
      lookupCount (obs.foldl bump acc) t = lookupCount acc t + obs.count t := by
  intro obs
  induction obs with
  | nil => intro acc t; simp
  | cons k obs ih =>
    intro acc t
    rw [List.foldl_cons, ih (bump acc k) t, lookupCount_bump, List.count_cons]
    simp only [beq_iff_eq]
    omega

lemma keysOf_bump (l : List (String × ℕ)) (k : String) :
    keysOf (bump l k) =
      if k ∈ keysOf l then keysOf l else keysOf l ++ [k] := by
  induction l with
  | nil => simp [bump, keysOf]
  | cons p l ih =>
    obtain ⟨k', c⟩ := p
    by_cases hk : k' = k
    · subst hk
      simp [bump, keysOf]
    · have hne : ¬ k = k' := fun h => hk h.symm
      simp only [keysOf] at ih
      by_cases hmem : k ∈ List.map Prod.fst l
      · simp [bump, keysOf, hk, hmem, hne, ih, List.mem_cons]
      · simp [bump, keysOf, hk, hmem, hne, ih, List.mem_cons]

lemma keysOf_foldl_bump :
    ∀ (obs : List String) (acc : List (String × ℕ)),
      keysOf (obs.foldl bump acc) =
        obs.foldl (fun ks k => if k ∈ ks then ks else ks ++ [k]) (keysOf acc) := by
  intro obs
  induction obs with
  | nil => intro acc; rfl
  | cons k obs ih =>
    intro acc
    rw [List.foldl_cons, List.foldl_cons, ih (bump acc k), keysOf_bump]

lemma keysOf_tagCounter (records : List FrameAnalysis) :
    keysOf (tagCounter records) = firstSeenList (tagObs records) := by
  rw [tagCounter, keysOf_foldl_bump, firstSeenList]
  rfl

lemma mem_foldl_firstSeen :
    ∀ (obs : List String) (acc : List String) (x : String),
      x ∈ obs.foldl (fun ks k => if k ∈ ks then ks else ks ++ [k]) acc ↔
        x ∈ acc ∨ x ∈ obs := by
  intro obs
  induction obs with
  | nil => intro acc x; simp
  | cons k obs ih =>
    intro acc x
    rw [List.foldl_cons, ih]
    by_cases hk : k ∈ acc
    · rw [if_pos hk]
      constructor
      · rintro (h | h)
        · exact Or.inl h
        · exact Or.inr (List.mem_cons_of_mem _ h)
      · rintro (h | h)
        · exact Or.inl h
        · rcases List.mem_cons.mp h with rfl | h
          · exact Or.inl hk
          · exact Or.inr h
    · rw [if_neg hk]
      constructor
      · rintro (h | h)
        · rcases List.mem_append.mp h with h | h
          · exact Or.inl h
          · exact Or.inr (List.mem_cons.mpr (Or.inl (List.mem_singleton.mp h)))
        · exact Or.inr (List.mem_cons_of_mem _ h)
      · rintro (h | h)
        · exact Or.inl (List.mem_append.mpr (Or.inl h))
        · rcases List.mem_cons.mp h with rfl | h
          · exact Or.inl (List.mem_append.mpr (Or.inr (List.mem_singleton.mpr rfl)))
          · exact Or.inr h

lemma mem_firstSeenList (obs : List String) (x : String) :
    x ∈ firstSeenList obs ↔ x ∈ obs := by
  rw [firstSeenList, mem_foldl_firstSeen]
  simp

lemma nodup_foldl_firstSeen :
    ∀ (obs : List String) (acc : List String), acc.Nodup →
      (obs.foldl (fun ks k => if k ∈ ks then ks else ks ++ [k]) acc).Nodup := by
  intro obs
  induction obs with
  | nil => intro acc h; exact h
  | cons k obs ih =>
    intro acc h
    rw [List.foldl_cons]
    by_cases hk : k ∈ acc
    · rw [if_pos hk]; exact ih acc h
    · rw [if_neg hk]
      refine ih _ ?_
      rw [List.nodup_append]
      refine ⟨h, List.nodup_singleton k, ?_⟩
      intro a ha hak
      exact hk ((List.mem_singleton.mp hak) ▸ ha)

lemma nodup_firstSeenList (obs : List String) : (firstSeenList obs).Nodup :=
  nodup_foldl_firstSeen obs [] List.nodup_nil

lemma pairwise_indexOf_lt {α : Type} [DecidableEq α] :
    ∀ (l : List α), l.Nodup →
      List.Pairwise (fun s t => l.indexOf s < l.indexOf t) l := by
  intro l
  induction l with
  | nil => intro _; exact List.Pairwise.nil
  | cons x tl ih =>
    intro hnd
    have hx : x ∉ tl := (List.nodup_cons.mp hnd).1
    have htl : tl.Nodup := (List.nodup_cons.mp hnd).2
    refine List.pairwise_cons.mpr ⟨fun y hy => ?_, ?_⟩
    · have hyx : y ≠ x := fun h => hx (h ▸ hy)
      rw [List.indexOf_cons_self, List.indexOf_cons_ne tl hyx.symm]
      exact Nat.succ_pos _
    · refine (ih htl).imp_of_mem ?_
      intro s t hs ht hlt
      have hsx : s ≠ x := fun h => hx (h ▸ hs)
      have htx : t ≠ x := fun h => hx (h ▸ ht)
      rw [List.indexOf_cons_ne tl hsx.symm, List.indexOf_cons_ne tl htx.symm]
      exact Nat.succ_lt_succ hlt

lemma count_frameTagObs (fa : FrameAnalysis) (t : String) :
    (frameTagObs fa).count t =
      fa.environment.count t +
        (if fa.flight_style = t ∧ t ≠ "" ∧ t ≠ "unknown" ∧ t ≠ "stationary"
         then 1 else 0) := by
  rw [frameTagObs, List.count_append]
  by_cases hft : fa.flight_style = t
  · subst hft
    by_cases hc : fa.flight_style ≠ "" ∧ fa.flight_style ≠ "unknown" ∧
        fa.flight_style ≠ "stationary"
    · simp [hc.1, hc.2.1, hc.2.2]
    · simp only [eq_self_iff_true, true_and]
      simp [hc]
  · by_cases hc : fa.flight_style ≠ "" ∧ fa.flight_style ≠ "unknown" ∧
        fa.flight_style ≠ "stationary" <;>
      simp [hc, hft, List.count_cons]

lemma specTagCount_eq_count (records : List FrameAnalysis) (t : String) :
    specTagCount records t = (tagObs records).count t := by
  induction records with
  | nil => simp [specTagCount, tagObs]
  | cons fa rest ih =>
    have htail : (rest.map fun fa =>
        fa.environment.count t +
          (if fa.flight_style = t ∧ t ≠ "" ∧ t ≠ "unknown" ∧ t ≠ "stationary"
           then 1 else 0)).sum = (tagObs rest).count t := by
      simpa [specTagCount] using ih
    simp only [specTagCount, List.map_cons, List.sum_cons]
    rw [tagObs, List.flatMap_cons, List.count_append, count_frameTagObs, htail]
    rfl

lemma lookupCount_tagCounter (records : List FrameAnalysis) (t : String) :
    lookupCount (tagCounter records) t = specTagCount records t := by
  rw [tagCounter, lookupCount_foldl_bump, specTagCount_eq_count]
  simp [lookupCount]

lemma pyInt_le_iff {x : ℚ} {n : ℤ} (hn : 0 < n) : pyInt x ≤ n ↔ ⌊x⌋ ≤ n := by
  rw [pyInt]
  by_cases hx : x < 0
  · rw [if_pos hx]
    have h1 : -⌊-x⌋ ≤ n :=
      le_trans (neg_nonpos.mpr (Int.floor_nonneg.mpr (by linarith))) hn.le
    have h2 : ⌊x⌋ ≤ n := le_trans (Int.floor_nonpos hx.le) hn.le
    exact iff_of_true h1 h2
  · rw [if_neg hx]

lemma pairwise_orderedInsert {α : Type} (r : α → α → Prop) [DecidableRel r]
    (Q : α → α → Prop) (hskip : ∀ u v, ¬ r u v → Q v u) (a : α) :
    ∀ l : List α, (∀ b ∈ l, Q a b) → l.Pairwise Q →
      (List.orderedInsert r a l).Pairwise Q := by
  intro l
  induction l with
  | nil => intro _ _; exact List.pairwise_singleton Q a
  | cons b t ih =>
    intro hQa hl
    rw [List.orderedInsert]
    by_cases hr : r a b
    · rw [if_pos hr]
      exact List.pairwise_cons.mpr ⟨hQa, hl⟩
    · rw [if_neg hr]
      refine List.pairwise_cons.mpr ⟨fun y hy => ?_, ?_⟩
      · rcases (List.mem_orderedInsert r).mp hy with heq | hyt
        · rw [heq]
          exact hskip a b hr
        · exact (List.pairwise_cons.mp hl).1 y hyt
      · exact ih (fun c hc => hQa c (List.mem_cons_of_mem _ hc))
          (List.pairwise_cons.mp hl).2

lemma pairwise_insertionSort {α : Type} (r : α → α → Prop) [DecidableRel r]
    (Q : α → α → Prop) (hskip : ∀ u v, ¬ r u v → Q v u) :
    ∀ l : List α, l.Pairwise Q → (List.insertionSort r l).Pairwise Q := by
  intro l
  induction l with
  | nil => intro _; exact List.Pairwise.nil
  | cons a t ih =>
    intro hl
    rw [List.insertionSort]
    exact pairwise_orderedInsert r Q hskip a _
      (fun b hb => (List.pairwise_cons.mp hl).1 b ((List.mem_insertionSort r).mp hb))
      (ih (List.pairwise_cons.mp hl).2)

/-- Claim C5 counterexample.  The claim says the tally excludes only the
flight-style values `"unknown"` and `"stationary"`, and that extraction
keeps *exactly* the tags whose tally count is `≥ floor(total * threshold)`.
For the single record with (schema-default) flight style `""` and threshold
`0.2`, the claim's tally gives `""` the count `1 ≥ floor(0.2) = 0`, so the
claim predicts `""` to be kept — but the code's truthiness test
`if fa.flight_style and …` also excludes the empty flight style, and the
extraction returns `[]`. -/
theorem empty_flight_style_not_tallied :
    extract_tags (1/5) [⟨0, "r", [], "", 5, []⟩] = [] ∧
    claimTagCount [⟨0, "r", [], "", 5, []⟩] "" = 1 ∧
    (⌊((([⟨0, "r", [], "", 5, []⟩] : List FrameAnalysis).length : ℚ) * (1/5))⌋ : ℤ) ≤
      (claimTagCount [⟨0, "r", [], "", 5, []⟩] "" : ℤ) ∧
    "" ∉ extract_tags (1/5) [⟨0, "r", [], "", 5, []⟩] :=
  ⟨by decide, by decide, by decide, by decide⟩

/-- Claim C5 (corrected).  Amended claim: tag extraction tallies the union of
each record's environment tags and flight-style value while excluding the
flight-style values `"unknown"`, `"stationary"` *and the empty (falsy)
value `""`* from the tally; it keeps exactly the tallied tags whose count is
`≥ floor(totalRecords · frequencyThreshold)`, and returns them sorted
descending by tally count with ties retaining first-observed order (stable
sort).  `specTagCount` is the per-record sum formula for the tally and
`firstSeenList (tagObs records)` lists the tags in first-observed order. -/
theorem tag_extraction_characterization :
    ∀ (tag_threshold : ℚ) (records : List FrameAnalysis),
      (∀ t : String,
        t ∈ extract_tags tag_threshold records ↔
          0 < specTagCount records t ∧
            ⌊(records.length : ℚ) * tag_threshold⌋ ≤ (specTagCount records t : ℤ)) ∧
      List.Pairwise
        (fun s t => specTagCount records t ≤ specTagCount records s)
        (extract_tags tag_threshold records) ∧
      List.Pairwise
        (fun s t => specTagCount records s = specTagCount records t →
          (firstSeenList (tagObs records)).indexOf s <
            (firstSeenList (tagObs records)).indexOf t)
        (extract_tags tag_threshold records) := by
  intro thr records
  by_cases hrec : records = []
  · subst hrec
    refine ⟨fun t => ?_, ?_, ?_⟩
    · simp [extract_tags, specTagCount]
    · simp [extract_tags]
    · simp [extract_tags]
  · have hdet : extract_tags thr records =
        List.insertionSort
          (fun a b => lookupCount (tagCounter records) b ≤
            lookupCount (tagCounter records) a)
          ((keysOf (tagCounter records)).filter
            fun t => pyInt ((records.length : ℚ) * thr) ≤
              (lookupCount (tagCounter records) t : ℤ)) := by
      simp only [extract_tags, if_neg hrec]
    have hkeys : ∀ t, t ∈ keysOf (tagCounter records) ↔
        0 < specTagCount records t := by
      intro t
      rw [keysOf_tagCounter, mem_firstSeenList, specTagCount_eq_count]
      exact List.count_pos_iff.symm
    refine ⟨fun t => ?_, ?_, ?_⟩
    · rw [hdet, List.mem_insertionSort, List.mem_filter]
      rw [decide_eq_true_iff, hkeys t, lookupCount_tagCounter]
      constructor
      · rintro ⟨h1, h2⟩
        exact ⟨h1, (pyInt_le_iff (by exact_mod_cast h1)).mp h2⟩
      · rintro ⟨h1, h2⟩
        exact ⟨h1, (pyInt_le_iff (by exact_mod_cast h1)).mpr h2⟩
    · rw [hdet]
      have hs : List.Sorted
          (fun a b => lookupCount (tagCounter records) b ≤
            lookupCount (tagCounter records) a)
          (List.insertionSort
            (fun a b => lookupCount (tagCounter records) b ≤
              lookupCount (tagCounter records) a)
            ((keysOf (tagCounter records)).filter
              fun t => pyInt ((records.length : ℚ) * thr) ≤
                (lookupCount (tagCounter records) t : ℤ))) := by
        letI : IsTotal String
            (fun a b => lookupCount (tagCounter records) b ≤
              lookupCount (tagCounter records) a) :=
          ⟨fun a b => le_total _ _⟩
        letI : IsTrans String
            (fun a b => lookupCount (tagCounter records) b ≤
              lookupCount (tagCounter records) a) :=
          ⟨fun a b c h1 h2 => le_trans h2 h1⟩
        exact List.sorted_insertionSort _ _
      refine hs.imp ?_
      intro a b h
      rw [← lookupCount_tagCounter records a, ← lookupCount_tagCounter records b]
      exact h
    · rw [hdet]
      have hkeyspw : (keysOf (tagCounter records)).Pairwise
          (fun s t => (firstSeenList (tagObs records)).indexOf s <
            (firstSeenList (tagObs records)).indexOf t) := by
        rw [keysOf_tagCounter]
        exact pairwise_indexOf_lt _ (nodup_firstSeenList _)
      have htagspw := List.Pairwise.sublist
        (@List.filter_sublist String
          (fun t => decide (pyInt ((records.length : ℚ) * thr) ≤
            (lookupCount (tagCounter records) t : ℤ)))
          (keysOf (tagCounter records))) hkeyspw
      refine pairwise_insertionSort _ _ ?_ _
        (List.Pairwise.imp
          (fun {s t} h => fun (_ : specTagCount records s = specTagCount records t) => h)
          htagspw)
      intro u v hr heq
      exact absurd
        (le_of_eq (by
          rw [lookupCount_tagCounter, lookupCount_tagCounter, heq])) hr

/-- Witness for `tag_extraction_characterization`: the membership
characterization applied to a concrete two-record sequence and the tag
`"trees"`. -/
theorem tag_extraction_characterization_witness :
    "trees" ∈ extract_tags (1/5)
        [⟨0, "r", ["park", "trees"], "freestyle", 5, []⟩,
          ⟨1, "s", ["trees"], "unknown", 5, []⟩] ↔
      0 < specTagCount
          [⟨0, "r", ["park", "trees"], "freestyle", 5, []⟩,
            ⟨1, "s", ["trees"], "unknown", 5, []⟩] "trees" ∧
        ⌊(([⟨0, "r", ["park", "trees"], "freestyle", 5, []⟩,
            ⟨1, "s", ["trees"], "unknown", 5, []⟩] :
              List FrameAnalysis).length : ℚ) * (1/5)⌋ ≤
          (specTagCount
            [⟨0, "r", ["park", "trees"], "freestyle", 5, []⟩,
              ⟨1, "s", ["trees"], "unknown", 5, []⟩] "trees" : ℤ) :=
  (tag_extraction_characterization (1/5)
    [⟨0, "r", ["park", "trees"], "freestyle", 5, []⟩,
      ⟨1, "s", ["trees"], "unknown", 5, []⟩]).1 "trees"

/-- Witness for `signal_loss_intervals_per_matching_issue`: the per-issue
interval characterization applied to a concrete one-record sequence with two
matching issues. -/
theorem signal_loss_intervals_per_matching_issue_witness :
    (assess_quality
        [⟨0, "r", [], "", 5, ["signal", "loss"]⟩]).signal_loss_segments =
      ([⟨0, "r", [], "", 5, ["signal", "loss"]⟩] :
          List FrameAnalysis).flatMap (fun fa =>
        (fa.quality_issues.filter sigLossMatch).map
          fun _ => (fa.timestamp, fa.timestamp + 1)) :=
  (signal_loss_intervals_per_matching_issue
    [⟨0, "r", [], "", 5, ["signal", "loss"]⟩]).1

end VideoAnalysis
